import Mathlib

/-!
Verification of the AmzWP content-discovery and placement pipeline.

This file gives a shallow embedding, in Lean 4, of the parts of the
TypeScript sources that the verified properties are about:

* the relevance scorer and the batch auto-populate placement algorithm of
  the post editor (`calculateRelevance`, `handleAutoPopulate`);
* the single-flight request deduplicator (`deduplicateRequest`);
* the concurrency-bounded deep audit of the sitemap scanner
  (`runDeepAudit`, both variants);
* the localStorage-backed TTL cache (`LocalStorageCacheService`);
* the deep-scan fallback path (`runDeepScan`);
* the AI copy enhancer (`extractJSON`, `enhanceProductCopy`).

Conventions of the embedding:

* JavaScript strings are modelled by Lean `String`, manipulated through
  their character lists so that every function reduces by structural
  recursion; JS string `length` counts UTF-16 code units where we count
  characters (identical on the ASCII inputs of all concrete witnesses).
* Integer-valued scores and indices are `Int`/`Nat`; the only fractional
  quantities (candidate confidences in [0,1] and the 0.7 word-match
  threshold) are modelled with exact rational arithmetic.  The JS float
  comparison `matched/total > 0.7` agrees with the exact comparison
  `10*matched > 7*total` for every list length that a split string can
  produce (both sides are exact at the tie 7/10, and elsewhere rounding
  to the nearest double preserves the order at these magnitudes).
* Asynchronous code is modelled by explicit completion orders / event
  traces; collaborator functions that live outside the repository
  (WordPress fetches, `calculatePostPriority`, the AI provider,
  `JSON.parse`) are universally-quantified parameters.
* Memoization caches that only replay previously computed values
  (`relevanceCache`) are elided: they do not change any computed value.
* Values of `Date.now()` used solely to build fresh DOM node ids are
  elided from the generated id strings; no embedded property reads them.
-/

set_option maxRecDepth 100000

namespace AmzWP

/-! ## JavaScript string primitives (over character lists) -/

/-- Left-brace character, written via its code point. -/
def lbrace : Char := Char.ofNat 123

/-- Right-brace character, written via its code point. -/
def rbrace : Char := Char.ofNat 125

/-- JS `String.prototype.toLowerCase` (per-character lowering). -/
def jsToLower (s : List Char) : List Char := s.map Char.toLower

/-- JS `hay.includes(sub)`: substring containment. -/
def jsIncludes (hay sub : List Char) : Bool := decide (sub <:+: hay)

/-- JS truthiness of an optional string: `undefined` and `""` are falsy. -/
def jsTruthy : Option String → Bool
  | some s => !(s == "")
  | none => false

/-- Splitting a character list at every whitespace character.  This is JS
`s.split(/\s+/)` up to the empty pieces produced inside whitespace runs,
which the regex collapses; every use below filters the pieces by a
positive minimum length, so the two agree after filtering. -/
def splitWS : List Char → List Char → List (List Char)
  | [], acc => [acc.reverse]
  | c :: rest, acc =>
    if c.isWhitespace then acc.reverse :: splitWS rest [] else splitWS rest (c :: acc)

/-- JS `s.split(/\s+/).filter((w) => w.length > n)`. -/
def splitWordsLongerThan (n : Nat) (s : List Char) : List (List Char) :=
  (splitWS s []).filter (fun w => n < w.length)

/-! ## Data model: product candidates.  The TS interface `ProductDetails`
is declared in `types.ts`; the fields below are the ones read by the
embedded pipeline functions (fields such as price, rating or image URL
are never read by them and are omitted). -/

/-- Product candidate record. -/
structure ProductDetails where
  id : String
  title : String
  brand : Option String := none
  exactMention : Option String := none
  paragraphIndex : Option Int := none
  confidence : Option ℚ := none
  verdict : Option String := none
  evidenceClaims : Option (List String) := none
  faqs : Option (List (String × String)) := none
deriving DecidableEq

/-! ## Relevance engine (`calculateRelevance`, PostEditor) -/

/-- Words of the lowercased text that are longer than 3 characters:
`s.toLowerCase().split(/\s+/).filter((w) => w.length > 3)`. -/
def significantWords (s : List Char) : List (List Char) :=
  splitWordsLongerThan 3 (jsToLower s)

/-- Relevance score between a text block and a product candidate;
embedding of `calculateRelevance` from the PostEditor.  The memo cache is
elided (it only replays previously computed scores).  The float test
`ratio > 0.7` is rendered as the exact comparison `10*matched > 7*total`
(see the header note). -/
def calculateRelevance (text : String) (product : ProductDetails) : Int :=
  let clean := jsToLower text.data
  let s0 : Int := 0
  let s1 : Int :=
    match product.exactMention with
    | some em =>
        let words := significantWords em.data
        let matched := (words.filter (fun w => jsIncludes clean w)).length
        if 0 < words.length ∧ 7 * words.length < 10 * matched then s0 + 1000 else s0
    | none => s0
  let s2 : Int := if jsIncludes clean (jsToLower product.title.data) then s1 + 100 else s1
  let s3 : Int :=
    match product.brand with
    | some b =>
        if jsTruthy (some (String.mk (jsToLower b.data)))
            ∧ jsIncludes clean (jsToLower b.data) = true
        then s2 + 50 else s2
    | none => s2
  let s4 : Int :=
    s3 + 10 * ((significantWords product.title.data).filter (fun w => jsIncludes clean w)).length
  let s5 : Int := if text.data.length < 50 ∧ s4 < 50 then s4 - 10 else s4
  s5

/-- Relevance score as claim C1 words it: the sum of an exact-mention
term (1000 when at least 70% — note the `≥` — of the significant mention
words appear in the lowercased block), a title term (100), a brand term
(50), 10 per significant title word present, and a −10 penalty when the
block is under 50 characters and the score accumulated so far is below
50. -/
def specRelevanceClaimed (text : String) (product : ProductDetails) : Int :=
  let clean := jsToLower text.data
  let exactTerm : Int :=
    match product.exactMention with
    | some em =>
        let words := significantWords em.data
        let matched := (words.filter (fun w => jsIncludes clean w)).length
        if 0 < words.length ∧ 7 * words.length ≤ 10 * matched then 1000 else 0
    | none => 0
  let titleTerm : Int := if jsIncludes clean (jsToLower product.title.data) then 100 else 0
  let brandTerm : Int :=
    match product.brand with
    | some b =>
        if jsTruthy (some (String.mk (jsToLower b.data)))
            ∧ jsIncludes clean (jsToLower b.data) = true
        then 50 else 0
    | none => 0
  let wordTerm : Int :=
    10 * ((significantWords product.title.data).filter (fun w => jsIncludes clean w)).length
  let beforePenalty : Int := exactTerm + titleTerm + brandTerm + wordTerm
  let penalty : Int := if text.data.length < 50 ∧ beforePenalty < 50 then -10 else 0
  beforePenalty + penalty

/-- Amended relevance formula: identical to `specRelevanceClaimed` except
that the exact-mention term requires strictly more than 70% of the
significant mention words to appear, as the code's `ratio > 0.7` does. -/
def specRelevanceStrict (text : String) (product : ProductDetails) : Int :=
  let clean := jsToLower text.data
  let exactTerm : Int :=
    match product.exactMention with
    | some em =>
        let words := significantWords em.data
        let matched := (words.filter (fun w => jsIncludes clean w)).length
        if 0 < words.length ∧ 7 * words.length < 10 * matched then 1000 else 0
    | none => 0
  let titleTerm : Int := if jsIncludes clean (jsToLower product.title.data) then 100 else 0
  let brandTerm : Int :=
    match product.brand with
    | some b =>
        if jsTruthy (some (String.mk (jsToLower b.data)))
            ∧ jsIncludes clean (jsToLower b.data) = true
        then 50 else 0
    | none => 0
  let wordTerm : Int :=
    10 * ((significantWords product.title.data).filter (fun w => jsIncludes clean w)).length
  let beforePenalty : Int := exactTerm + titleTerm + brandTerm + wordTerm
  let penalty : Int := if text.data.length < 50 ∧ beforePenalty < 50 then -10 else 0
  beforePenalty + penalty

/-- Text block used in the C1 boundary counterexample: it contains exactly
7 of the 10 significant words of the mention below and is 61 characters
long. -/
def c1Block : String := "alpha bravo carlo delta elena frank georg secret padding text"

/-- Product used in the C1 boundary counterexample: its exact mention has
10 significant words, exactly 7 of which occur in `c1Block`. -/
def c1Product : ProductDetails :=
  { id := "p1"
    title := "zzzz"
    exactMention := some "alpha bravo carlo delta elena frank georg henry irene julia" }

/-! ## Batch auto-populate candidate ordering (`handleAutoPopulate`) -/

/-- Strict comparison of paragraph-index sort keys, with `none` playing
the role of the JS `Infinity` produced by `a.paragraphIndex ?? Infinity`. -/
def hintLT : Option Int → Option Int → Bool
  | some x, some y => decide (x < y)
  | some _, none => true
  | none, _ => false

/-- Comparator of the batch placement sort
`[...toPlace].sort((a, b) => ai !== bi ? bi - ai : (b.confidence ?? 0) - (a.confidence ?? 0))`
rendered as a `should stay no later than` test: `candLe a b` holds
exactly when the JS comparator returns a value ≤ 0 on `(a, b)`. -/
def candLe (a b : ProductDetails) : Bool :=
  if a.paragraphIndex = b.paragraphIndex
  then decide (b.confidence.getD 0 ≤ a.confidence.getD 0)
  else hintLT b.paragraphIndex a.paragraphIndex

/-- Propositional form of the comparator order. -/
def candRel (a b : ProductDetails) : Prop := candLe a b = true

instance : DecidableRel candRel := fun a b => by unfold candRel; infer_instance

instance : IsTotal ProductDetails candRel where
  total a b := by
    unfold candRel candLe
    by_cases h : a.paragraphIndex = b.paragraphIndex
    · rw [if_pos h, if_pos h.symm]
      rcases le_total (a.confidence.getD 0) (b.confidence.getD 0) with hc | hc
      · right; exact decide_eq_true hc
      · left; exact decide_eq_true hc
    · rw [if_neg h, if_neg (fun hh => h hh.symm)]
      rcases ha : a.paragraphIndex with _ | x <;> rcases hb : b.paragraphIndex with _ | y
      · exact absurd (ha.trans hb.symm) h
      · left; rfl
      · right; rfl
      · rcases lt_or_gt_of_ne (fun hxy : x = y => h (by rw [ha, hb, hxy])) with hlt | hlt
        · right; simpa [hintLT] using hlt
        · left; simpa [hintLT] using hlt

instance : IsTrans ProductDetails candRel where
  trans a b c h1 h2 := by
    unfold candRel candLe at h1 h2 ⊢
    by_cases hab : a.paragraphIndex = b.paragraphIndex <;>
      by_cases hbc : b.paragraphIndex = c.paragraphIndex
    · rw [if_pos hab] at h1
      rw [if_pos hbc] at h2
      rw [if_pos (hab.trans hbc)]
      exact decide_eq_true (le_trans (of_decide_eq_true h2) (of_decide_eq_true h1))
    · rw [if_neg (fun h => hbc (hab.symm.trans h))]
      rw [if_neg hbc] at h2
      rw [hab]
      exact h2
    · rw [if_neg (fun h => hab (h.trans hbc.symm))]
      rw [if_neg hab] at h1
      rw [← hbc]
      exact h1
    · rw [if_neg hab] at h1
      rw [if_neg hbc] at h2
      have hac : ¬ a.paragraphIndex = c.paragraphIndex := by
        intro h
        rcases ha : a.paragraphIndex with _ | x <;> rcases hb : b.paragraphIndex with _ | y <;>
          rcases hc : c.paragraphIndex with _ | z <;>
            simp_all [hintLT] <;> omega
      rw [if_neg hac]
      rcases ha : a.paragraphIndex with _ | x <;> rcases hb : b.paragraphIndex with _ | y <;>
        rcases hc : c.paragraphIndex with _ | z <;>
          simp_all [hintLT] <;> omega

/-- Candidate processing order of `handleAutoPopulate`.  JS
`Array.prototype.sort` is required to be stable and, for a consistent
comparator, returns the unique stable ordering consistent with it; the
(stable, structural) insertion sort realizes exactly that ordering. -/
def sortCandidates (l : List ProductDetails) : List ProductDetails :=
  l.insertionSort candRel

/-- Relation actually enforced between any earlier and any later element
of `sortCandidates`: unhinted candidates come first, ordered by
confidence descending, followed by hinted candidates ordered by
paragraph index descending. -/
def afterSortRel (a b : ProductDetails) : Prop :=
  match a.paragraphIndex, b.paragraphIndex with
  | none, none => b.confidence.getD 0 ≤ a.confidence.getD 0
  | none, some _ => True
  | some _, none => False
  | some x, some y => y < x ∨ (y = x ∧ b.confidence.getD 0 ≤ a.confidence.getD 0)

/-- Hinted candidate of the C2 counterexample (paragraph hint 0, maximal
confidence). -/
def c2Hinted : ProductDetails :=
  { id := "hinted", title := "hinted", paragraphIndex := some 0, confidence := some 1 }

/-- Unhinted candidate of the C2 counterexample (no hint, zero
confidence). -/
def c2Unhinted : ProductDetails :=
  { id := "unhinted", title := "unhinted", confidence := some 0 }

/-! ## Document nodes and the batch auto-populate placement
(`handleAutoPopulate`, PostEditor) -/

/-- Discriminator of the `EditorNode` union. -/
inductive NodeType where
  | HTML
  | PRODUCT
  | COMPARISON
deriving DecidableEq

/-- Comparison-table payload (ordered product ids and spec keys). -/
structure ComparisonData where
  productIds : List String := []
  specKeys : List String := []
deriving DecidableEq

/-- Editor document node (`interface EditorNode` of the PostEditor). -/
structure EditorNode where
  id : String
  type : NodeType
  content : Option String := none
  productId : Option String := none
  comparisonData : Option ComparisonData := none
deriving DecidableEq

/-- Spacing constant of the PostEditor. -/
def MIN_GAP_BETWEEN_PRODUCTS : Nat := 3

/-- Whether a node blocks nearby placement
(`n.type === 'PRODUCT' || n.type === 'COMPARISON'`). -/
def isObstacle (n : EditorNode) : Bool :=
  n.type == NodeType.PRODUCT || n.type == NodeType.COMPARISON

/-- Membership in the occupied zone set built by `getOccupied`: position
`g` is occupied when some product/comparison node at position `i` puts it
inside `[max(0, i-3), min(length-1, i+3)]`.  Truncated subtraction
renders the `max(0, ·)` clamp and the bound `g < length` the
`min(length-1, ·)` clamp. -/
def occupiedIdx (nodes : List EditorNode) (g : Nat) : Bool :=
  nodes.enum.any fun p =>
    isObstacle p.2 && decide (p.1 - MIN_GAP_BETWEEN_PRODUCTS ≤ g)
      && decide (g ≤ p.1 + MIN_GAP_BETWEEN_PRODUCTS) && decide (g < nodes.length)

/-- Position of the `k`-th HTML node (0-based among HTML nodes), the
index the hint path of `handleAutoPopulate` scans for; `i` accumulates
the absolute position. -/
def findHtmlIdx : List EditorNode → Nat → Nat → Option Nat
  | [], _, _ => none
  | n :: rest, k, i =>
    if n.type == NodeType.HTML then
      if k == 0 then some i else findHtmlIdx rest (k - 1) (i + 1)
    else findHtmlIdx rest k (i + 1)

/-- Type of the node at a position (`newNodes[j]?.type`). -/
def typeAt (nodes : List EditorNode) (j : Nat) : Option NodeType :=
  (nodes.get? j).map EditorNode.type

/-- Probe loop of the hint path: for offsets 1..4, try `i + off` then
`i - off`, accepting the first in-bounds unoccupied HTML position. -/
def probeHint (nodes : List EditorNode) (i : Nat) : Option Nat :=
  [1, 2, 3, 4].findSome? fun off =>
    if i + off < nodes.length ∧ occupiedIdx nodes (i + off) = false
        ∧ typeAt nodes (i + off) = some NodeType.HTML then some (i + off)
    else if off ≤ i ∧ occupiedIdx nodes (i - off) = false
        ∧ typeAt nodes (i - off) = some NodeType.HTML then some (i - off)
    else none

/-- Hint path of one `handleAutoPopulate` iteration: result is the
`(bestIdx, maxScore)` pair after the `Try paragraph index first` block
(`(-1, -1)` when the hint is absent, negative, beyond the last HTML
block, or occupied with all probes failing). -/
def hintSearch (nodes : List EditorNode) (p : ProductDetails) : Int × Int :=
  match p.paragraphIndex with
  | some pi =>
      if 0 ≤ pi then
        match findHtmlIdx nodes pi.toNat 0 with
        | some i =>
            if occupiedIdx nodes i = false then ((i : Int), 10000)
            else
              match probeHint nodes i with
              | some j => ((j : Int), 9000)
              | none => (-1, -1)
        | none => (-1, -1)
      else (-1, -1)
  | none => (-1, -1)

/-- Tag-stripping scan for
`node.content.replace(/<[^>]+>/g, '').trim().length`, as a single
left-to-right pass.  `pending` buffers (reversed) the characters of a
candidate tag opened by `<` and not yet closed: a closing `>` after at
least one buffered non-`>` character completes the tag and drops the
buffer (the regex consumes `<[^>]+>`), a `>` arriving immediately after
the `<` flushes the two characters literally (the regex needs one or
more inner characters), and an unclosed buffer at the end of input is
flushed literally (the failed match leaves the text untouched). -/
def stripTagsGo : List Char → List Char → List Char
  | [], pending => pending.reverse
  | c :: rest, [] =>
    if c = '<' then stripTagsGo rest ['<'] else c :: stripTagsGo rest []
  | c :: rest, p :: ps =>
    if c = '>' then
      if ps.isEmpty then '<' :: '>' :: stripTagsGo rest []
      else stripTagsGo rest []
    else stripTagsGo rest (c :: p :: ps)

/-- HTML-tag removal, `s.replace(/<[^>]+>/g, '')`. -/
def stripTags (l : List Char) : List Char := stripTagsGo l []

/-- Leading/trailing-whitespace trim (JS `String.prototype.trim`). -/
def trimWS (l : List Char) : List Char :=
  ((l.dropWhile Char.isWhitespace).reverse.dropWhile Char.isWhitespace).reverse

/-- Visible length of a content block, used by the fallback scoring. -/
def visibleLen (content : String) : Nat :=
  (trimWS (stripTags content.data)).length

/-- Length-adjusted relevance used by the fallback path of
`handleAutoPopulate` (penalize blocks under 30 visible characters,
reward blocks over 200). -/
def adjustedRelevance (content : String) (p : ProductDetails) : Int :=
  let score := calculateRelevance content p
  let len := visibleLen content
  let score := if len < 30 then score - 50 else score
  let score := if 200 < len then score + 15 else score
  score

/-- Fallback scan of one `handleAutoPopulate` iteration: fold over all
positions, keeping the best strictly-improving score among unoccupied
HTML nodes with truthy content. -/
def fallbackScan (nodes : List EditorNode) (p : ProductDetails) (init : Int × Int) : Int × Int :=
  nodes.enum.foldl
    (fun best q =>
      match q.2.type == NodeType.HTML, q.2.content with
      | true, some c =>
          if c ≠ "" ∧ occupiedIdx nodes q.1 = false then
            let score := adjustedRelevance c p
            if best.2 < score then ((q.1 : Int), score) else best
          else best
      | _, _ => best)
    init

/-- Freshly inserted product node
(`{ id: 'prod-node-<pid>-<now>-<injected>', type: 'PRODUCT', productId }`;
the `Date.now()` component of the id is elided). -/
def newProductNode (p : ProductDetails) (injected : Nat) : EditorNode :=
  { id := "prod-node-" ++ p.id ++ "-" ++ toString injected
    type := NodeType.PRODUCT
    productId := some p.id }

/-- One iteration of the `sorted.forEach` loop of `handleAutoPopulate`:
hint path, then fallback when the hint path scored below 9000, then
insertion at `bestIdx + 1` when `bestIdx ≥ 0 && maxScore > 0`. -/
def placeOne (nodes : List EditorNode) (injected : Nat) (p : ProductDetails) :
    List EditorNode × Nat :=
  let first := hintSearch nodes p
  let best := if first.2 < 9000 then fallbackScan nodes p first else first
  if 0 ≤ best.1 ∧ 0 < best.2 then
    (nodes.insertIdx (best.1.toNat + 1) (newProductNode p injected), injected + 1)
  else (nodes, injected)

/-- Batch auto-populate: sort the unplaced candidates, then place each in
turn; returns the final node list and the injected count. -/
def handleAutoPopulate (nodes : List EditorNode) (toPlace : List ProductDetails) :
    List EditorNode × Nat :=
  (sortCandidates toPlace).foldl (fun acc p => placeOne acc.1 acc.2 p) (nodes, 0)

/-- Instrumented variant of `placeOne` that carries a `Bool` mark on each
node recording whether this batch inserted it; the algorithm itself runs
on the unmarked projection. -/
def placeOneMarked (nodesM : List (Bool × EditorNode)) (injected : Nat) (p : ProductDetails) :
    List (Bool × EditorNode) × Nat :=
  let nodes := nodesM.map Prod.snd
  let first := hintSearch nodes p
  let best := if first.2 < 9000 then fallbackScan nodes p first else first
  if 0 ≤ best.1 ∧ 0 < best.2 then
    (nodesM.insertIdx (best.1.toNat + 1) (true, newProductNode p injected), injected + 1)
  else (nodesM, injected)

/-- Instrumented `handleAutoPopulate`: identical run, with batch-inserted
nodes marked `true`. -/
def autoPopulateMarked (nodes : List EditorNode) (toPlace : List ProductDetails) :
    List (Bool × EditorNode) × Nat :=
  (sortCandidates toPlace).foldl (fun acc p => placeOneMarked acc.1 acc.2 p)
    (nodes.map (fun n => (false, n)), 0)

/-- Spacing invariant on a marked node list: every batch-inserted
(marked) node is a product node, and every marked node is farther than
the minimum gap from every other product/comparison node. -/
def MarkedGapOK (l : List (Bool × EditorNode)) : Prop :=
  (∀ i (hi : i < l.length), (l.get ⟨i, hi⟩).1 = true →
      (l.get ⟨i, hi⟩).2.type = NodeType.PRODUCT)
  ∧ ∀ i j (hi : i < l.length) (hj : j < l.length), i ≠ j →
      (l.get ⟨i, hi⟩).1 = true → isObstacle (l.get ⟨j, hj⟩).2 = true →
      i + MIN_GAP_BETWEEN_PRODUCTS < j ∨ j + MIN_GAP_BETWEEN_PRODUCTS < i

/-! ## Single-flight request deduplication (`deduplicateRequest`,
src/lib/request-dedup.ts)

The module keeps `pending : Map<string, Promise>`.  A call looks the key
up: a hit returns the in-flight promise without invoking the factory; a
miss invokes the factory, wraps its promise in a `finally` that deletes
the key, stores it, and returns it.  Because the `finally` handler runs
synchronously within the settlement of the stored promise, every
observer either sees the key mapped to a still-unsettled promise or does
not see the key at all.  We model this as a transition system: a `call`
event runs the body of `deduplicateRequest`; a `settle` event is the
environment settling one underlying operation (identified by a serial
number assigned at invocation) and runs the `finally` deletion.  A
promise settles exactly once, so a `settle` of an operation that is not
in flight is an invalid trace. -/

/-- Events driving the deduplicator. -/
inductive DedupEvent where
  | call (key : String)
  | settle (op : Nat) (success : Bool)
deriving DecidableEq

/-- Deduplicator state: the `pending` map (association list with unique
keys) and the next fresh operation serial. -/
structure DedupState where
  pending : List (String × Nat) := []
  nextOp : Nat := 0
deriving DecidableEq

/-- Lookup in the `pending` map (`pending.get(key)`). -/
def lookupKey (m : List (String × Nat)) (k : String) : Option Nat :=
  (m.find? (fun e => e.1 == k)).map Prod.snd

/-- Deletion from the `pending` map (`pending.delete(key)`). -/
def eraseKey (m : List (String × Nat)) (k : String) : List (String × Nat) :=
  m.filter (fun e => !(e.1 == k))

/-- Record of one `deduplicateRequest` call: the key, the operation whose
promise the caller received, and whether this call invoked the factory. -/
structure CallRecord where
  key : String
  op : Nat
  invoked : Bool
deriving DecidableEq

/-- One transition.  `call k` is the body of `deduplicateRequest`;
`settle o s` is operation `o` settling, which runs the `finally` handler
deleting `o`'s key.  Settling an operation that is not in flight is
invalid (`none`): a promise settles at most once. -/
def dedupStep (st : DedupState) (e : DedupEvent) : Option (DedupState × Option CallRecord) :=
  match e with
  | DedupEvent.call k =>
      match lookupKey st.pending k with
      | some o => some (st, some ⟨k, o, false⟩)
      | none =>
          some ({ pending := st.pending ++ [(k, st.nextOp)], nextOp := st.nextOp + 1 },
            some ⟨k, st.nextOp, true⟩)
  | DedupEvent.settle o _ =>
      match st.pending.find? (fun e => e.2 == o) with
      | some kv => some ({ st with pending := eraseKey st.pending kv.1 }, none)
      | none => none

/-- Fold a trace of events from a state, accumulating call records;
`none` when the trace is invalid. -/
def dedupRunFrom (st : DedupState) (recs : List CallRecord) :
    List DedupEvent → Option (DedupState × List CallRecord)
  | [] => some (st, recs)
  | e :: evs =>
      match dedupStep st e with
      | some (st', some r) => dedupRunFrom st' (recs ++ [r]) evs
      | some (st', none) => dedupRunFrom st' recs evs
      | none => none

/-- Run a trace from the module's initial state (empty `pending` map). -/
def dedupRun (evs : List DedupEvent) : Option (DedupState × List CallRecord) :=
  dedupRunFrom {} [] evs

/-- Whether the trace contains a settlement of operation `o`. -/
def settled (evs : List DedupEvent) (o : Nat) : Bool :=
  evs.any fun e =>
    match e with
    | DedupEvent.settle o' _ => o' == o
    | _ => false

/-- Number of settlements of operation `o` in the trace. -/
def settleCount (evs : List DedupEvent) (o : Nat) : Nat :=
  (evs.filter fun e =>
    match e with
    | DedupEvent.settle o' _ => o' == o
    | _ => false).length

/-- The unique outcome delivered to every caller holding operation `o`:
the success flag of its settlement, when it has settled. -/
def outcomeOf (evs : List DedupEvent) (o : Nat) : Option Bool :=
  evs.findSome? fun e =>
    match e with
    | DedupEvent.settle o' s => if o' == o then some s else none
    | _ => none

/-- Invariant tying the deduplicator state to the history that produced
it: the `pending` map holds, per key, exactly the invoked-and-unsettled
operation; no operation settles twice; an operation id determines its
key; and serial-number bookkeeping. -/
structure DedupInv (evs : List DedupEvent) (st : DedupState) (recs : List CallRecord) :
    Prop where
  pendingIff : ∀ k o, lookupKey st.pending k = some o ↔
      ((⟨k, o, true⟩ : CallRecord) ∈ recs ∧ settled evs o = false)
  settleOnce : ∀ o, settleCount evs o ≤ 1
  opKey : ∀ r₁ ∈ recs, ∀ r₂ ∈ recs, r₁.op = r₂.op → r₁.key = r₂.key
  pendingLt : ∀ e ∈ st.pending, e.2 < st.nextOp
  recsLt : ∀ r ∈ recs, r.op < st.nextOp
  keysNodup : (st.pending.map Prod.fst).Nodup
  opsNodup : (st.pending.map Prod.snd).Nodup
  settledLt : ∀ o, settled evs o = true → o < st.nextOp

/-! ## Deep audit of the sitemap scanner (`runDeepAudit`)

Two variants exist in the sources; both are embedded.  The variant in
`src/components/SitemapScanner.tsx` merges per-page results into a
`Map` keyed by page url; the variant in the unnamed scanner file updates
an array slot per page and counts completions.  The collaborators
`calculatePostPriority` (title/content classifier) and
`fetchPageContent` live in `../utils`, outside the embedded sources, and
are taken as parameters: `classify` and a fetch oracle mapping a url to
`some content` or `none` for a failed fetch. -/

/-- Page priority tier. -/
inductive PostPriority where
  | critical
  | high
  | medium
  | low
deriving DecidableEq

/-- Page monetization status. -/
inductive MonetizationStatus where
  | opportunity
  | monetized
  | noneYet
deriving DecidableEq

/-- Classification triple returned by `calculatePostPriority`. -/
structure PostAnalysis where
  priority : PostPriority
  type : String
  status : MonetizationStatus
deriving DecidableEq

/-- Page record (fields of `BlogPost` read by the audit). -/
structure BlogPost where
  id : Int
  title : String
  url : String
  content : Option String := none
  priority : PostPriority := PostPriority.medium
  postType : String := "post"
  monetizationStatus : MonetizationStatus := MonetizationStatus.opportunity
deriving DecidableEq

/-- JS `Map.prototype.set` on an association list with unique keys: an
existing key keeps its position and gets the new value; a new key is
appended. -/
def mapSet {β : Type} (m : List (String × β)) (k : String) (v : β) : List (String × β) :=
  match m with
  | [] => [(k, v)]
  | e :: rest => if e.1 = k then (k, v) :: rest else e :: mapSet rest k v

/-- Quick title-only classification pass applied to one page
(`{ ...p, priority, postType, monetizationStatus }` from
`calculatePostPriority(p.title, '')`). -/
def applyQuick (classify : String → String → PostAnalysis) (p : BlogPost) : BlogPost :=
  let a := classify p.title ""
  { p with priority := a.priority, postType := a.type, monetizationStatus := a.status }

/-- Deep classification of one page after a successful fetch
(`{ ...post, content, priority, monetizationStatus, postType }`). -/
def applyDeep (classify : String → String → PostAnalysis) (p : BlogPost) (content : String) :
    BlogPost :=
  let a := classify p.title content
  { p with content := some content, priority := a.priority, postType := a.type,
           monetizationStatus := a.status }

/-- The map state of `runDeepAudit` (SitemapScanner.tsx) after the
initial construction `new Map(posts.map(p => [p.url, p]))` and the quick
title-only pass. -/
def quickAuditMap (classify : String → String → PostAnalysis) (posts : List BlogPost) :
    List (String × BlogPost) :=
  let postMap := posts.foldl (fun m p => mapSet m p.url p) []
  posts.foldl (fun m p => mapSet m p.url (applyQuick classify p)) postMap

/-- Deep-pass write set: one `(url, updatedPost)` per audit target whose
fetch succeeds; a failed fetch writes nothing (the `catch` keeps the
quick analysis). -/
def deepWrites (classify : String → String → PostAnalysis) (oracle : String → Option String)
    (targets : List BlogPost) : List (String × BlogPost) :=
  targets.filterMap fun post =>
    match oracle post.url with
    | some content => some (post.url, applyDeep classify post content)
    | none => none

/-- Final map of a deep audit in which the per-page completions land in
the order given by `writes` (any permutation of `deepWrites`). -/
def auditMerge (m : List (String × BlogPost)) (writes : List (String × BlogPost)) :
    List (String × BlogPost) :=
  writes.foldl (fun acc w => mapSet acc w.1 w.2) m

/-- Full merged state of `runDeepAudit` (SitemapScanner.tsx) given a
completion order of the page fetches. -/
def runDeepAuditTsx (classify : String → String → PostAnalysis)
    (oracle : String → Option String) (posts : List BlogPost)
    (completionOrder : List (String × BlogPost)) : List (String × BlogPost) :=
  auditMerge (quickAuditMap classify posts) completionOrder

/-- Pointwise description of the merged state: every entry of the
quick-pass map, overridden by its deep write when one exists. -/
def auditOverride (m : List (String × BlogPost)) (writes : List (String × BlogPost)) :
    List (String × BlogPost) :=
  m.map fun e =>
    match writes.find? (fun w => w.1 = e.1) with
    | some w => (e.1, w.2)
    | none => e

/-- One completion of `processPost` in the unnamed scanner's
`runDeepAudit`: update the indexed slot (kept on fetch failure),
increment the shared `completed` counter, and report
`{ current: completed, total }`.  The state is
`(updatedPosts, completed, reports)`. -/
def processPost (classify : String → String → PostAnalysis) (oracle : String → Option String)
    (total : Nat) (st : List BlogPost × Nat × List (Nat × Nat)) (i : Nat) :
    List BlogPost × Nat × List (Nat × Nat) :=
  let arr := st.1
  let arr' :=
    match arr.get? i with
    | some post =>
        match oracle post.url with
        | some content =>
            arr.set i
              (let a := classify post.title content
               { post with priority := a.priority, postType := a.type,
                           monetizationStatus := a.status })
        | none => arr
    | none => arr
  (arr', st.2.1 + 1, st.2.2 ++ [(st.2.1 + 1, total)])

/-- The unnamed scanner's `runDeepAudit`, run under an arbitrary
completion order of the per-page fetches (a permutation of the page
indices).  The batched `for`-loop only bounds concurrency: the shared
counter/report section of `processPost` runs atomically per completion
in the single-threaded runtime, so the observable report sequence is a
fold over the completion order.  Returns the final array and the
reported `{current, total}` progress values, including the initial
`{0, total}` report; an empty audit returns without reporting. -/
def runDeepAuditScanner (classify : String → String → PostAnalysis)
    (oracle : String → Option String) (posts : List BlogPost) (order : List Nat) :
    List BlogPost × List (Nat × Nat) :=
  if posts.isEmpty then (posts, [])
  else
    let n := posts.length
    let final := order.foldl (processPost classify oracle n) (posts, 0, [(0, n)])
    (final.1, final.2.2)

/-! ## localStorage-backed TTL cache (`LocalStorageCacheService`)

The service stores `JSON.stringify({ value, expiresAt? })` strings under
string keys.  A raw stored string is modelled by its parse outcome: a
well-formed entry is `some (value, expiresAt?)` and an unreadable string
(malformed JSON) is `none`; this identifies `JSON.parse ∘ JSON.stringify`
with the identity on entries the service itself wrote, which is the only
property of the serializer the code relies on.  Each operation takes a
`fault` flag injecting a storage-layer exception (quota, security error):
the code wraps every operation in `try/catch`, so a `fault` must leave
the caller undisturbed.  Times are `Date.now()` instants in
milliseconds, passed explicitly. -/

/-- The modelled localStorage contents for one value type. -/
abbrev CacheStore (V : Type) : Type := List (String × Option (V × Option Nat))

/-- Raw read of a stored string (`localStorage.getItem`). -/
def storeRead {V : Type} (st : CacheStore V) (k : String) : Option (Option (V × Option Nat)) :=
  (st.find? (fun e => e.1 == k)).map Prod.snd

/-- Raw removal (`localStorage.removeItem`). -/
def storeRemove {V : Type} (st : CacheStore V) (k : String) : CacheStore V :=
  st.filter (fun e => !(e.1 == k))

/-- Raw keyed write (`localStorage.setItem`), replacing in place. -/
def storeWrite {V : Type} (st : CacheStore V) (k : String) (v : Option (V × Option Nat)) :
    CacheStore V :=
  match st with
  | [] => [(k, v)]
  | e :: rest => if e.1 = k then (k, v) :: rest else e :: storeWrite rest k v

/-- Embedding of `LocalStorageCacheService.get`: absent key, malformed
entry and thrown storage errors all read as `null`; an entry whose
truthy `expiresAt` lies strictly in the past is removed and reads as
`null`.  Returns the value read and the store afterwards. -/
def cacheGet {V : Type} (st : CacheStore V) (now : Nat) (k : String) (fault : Bool) :
    Option V × CacheStore V :=
  if fault then (none, st)
  else
    match storeRead st k with
    | none => (none, st)
    | some none => (none, st)
    | some (some (v, expiresAt)) =>
        match expiresAt with
        | some e => if e ≠ 0 ∧ e < now then (none, storeRemove st k) else (some v, st)
        | none => (some v, st)

/-- Embedding of `LocalStorageCacheService.set`: stores
`{ value, expiresAt: ttlMs ? now + ttlMs : undefined }`; note that a
zero `ttlMs` is falsy, so it stores no expiry.  A thrown storage error
is swallowed and leaves the store unchanged. -/
def cacheSet {V : Type} (st : CacheStore V) (now : Nat) (k : String) (v : V)
    (ttlMs : Option Nat) (fault : Bool) : CacheStore V :=
  if fault then st
  else
    let expiresAt := match ttlMs with
      | some t => if t ≠ 0 then some (now + t) else none
      | none => none
    storeWrite st k (some (v, expiresAt))

/-- Embedding of `LocalStorageCacheService.delete`. -/
def cacheDelete {V : Type} (st : CacheStore V) (k : String) (fault : Bool) : CacheStore V :=
  if fault then st else storeRemove st k

/-- Key namespace filter of `LocalStorageCacheService.clear`. -/
def isPipelineKey (k : String) : Bool :=
  k.startsWith "amzwp_" || k.startsWith "ai:" || k.startsWith "analysis:" || k.startsWith "wp:"

/-- Embedding of `LocalStorageCacheService.clear`: removes exactly the
keys under the pipeline's namespaces. -/
def cacheClear {V : Type} (st : CacheStore V) (fault : Bool) : CacheStore V :=
  if fault then st else st.filter (fun e => !(isPipelineKey e.1))

/-! ## Deep scan with legacy fallback (`runDeepScan`, PostEditor)

`tryPrecisionDetect` dynamically imports the precision module and
returns `null` when the import or the scan throws; the legacy detector
`analyzeContentAndFindProduct` is an external collaborator.  Both enter
the model as data: `precision : Option PrecisionResult` is the settled
outcome of `tryPrecisionDetect`, and `legacy` the legacy result. -/

/-- Result shape of the precision detection engine. -/
structure PrecisionResult where
  products : List ProductDetails
  comparison : Option ComparisonData := none
  contentType : String := ""
  candidateCount : Nat := 0
deriving DecidableEq

/-- Result shape of `analyzeContentAndFindProduct`. -/
structure LegacyResult where
  detectedProducts : List ProductDetails
  comparison : Option ComparisonData := none
deriving DecidableEq

/-- Unified outcome of one `runDeepScan` run. -/
structure DeepScanOutcome where
  products : List ProductDetails
  comparison : Option ComparisonData
  candidateCount : Nat
  usedFallback : Bool
  productMap : List (String × ProductDetails)
  nodes : List EditorNode
deriving DecidableEq

/-- Generic keyed insert into the product map
(`newMap[p.id] = p` over an object spread). -/
def productMapSet (m : List (String × ProductDetails)) (p : ProductDetails) :
    List (String × ProductDetails) :=
  match m with
  | [] => [(p.id, p)]
  | e :: rest => if e.1 = p.id then (p.id, p) :: rest else e :: productMapSet rest p

/-- The HTML joined by `runDeepScan` before analysis
(`editorNodes.filter(HTML).map(content ?? '').join('\n\n')`). -/
def currentHtmlOf (nodes : List EditorNode) : String :=
  String.intercalate "\n\n"
    (nodes.filterMap fun n =>
      if n.type == NodeType.HTML then some (n.content.getD "") else none)

/-- Embedding of `runDeepScan`: configuration guard, content guard,
precision path when it yields at least one product, legacy fallback
otherwise, merge into the product map, and comparison-table insertion at
position 1 when none exists yet (`Date.now()` in the node id elided).
Errors thrown before analysis surface as `Except.error` (the source's
catch block turns them into toasts). -/
def runDeepScan (aiConfigured : Bool) (nodes : List EditorNode)
    (productMap : List (String × ProductDetails)) (precision : Option PrecisionResult)
    (legacy : LegacyResult) : Except String DeepScanOutcome :=
  if ¬ aiConfigured then Except.error "AI provider not configured"
  else
    let currentHtml := currentHtmlOf nodes
    if currentHtml = "" ∨ (trimWS currentHtml.data).length < 50 then
      Except.error "Insufficient content for analysis"
    else
      let picked :=
        match precision with
        | some pr =>
            if 0 < pr.products.length then (pr.products, pr.comparison, pr.candidateCount, false)
            else (legacy.detectedProducts, legacy.comparison, legacy.detectedProducts.length, true)
        | none => (legacy.detectedProducts, legacy.comparison, legacy.detectedProducts.length, true)
      let products := picked.1
      let comparison := picked.2.1
      let candidateCount := picked.2.2.1
      let usedFallback := picked.2.2.2
      let newMap := if 0 < products.length then products.foldl productMapSet productMap
                    else productMap
      let nodes' :=
        match comparison with
        | some c =>
            if nodes.any (fun n => n.type == NodeType.COMPARISON) then nodes
            else nodes.insertIdx 1
              { id := "comp-table", type := NodeType.COMPARISON, comparisonData := some c }
        | none => nodes
      Except.ok ⟨products, comparison, candidateCount, usedFallback, newMap, nodes'⟩

/-! ## AI copy enhancement (`extractJSON` / `enhanceProductCopy`)

The AI provider and `JSON.parse` are collaborators: the provider outcome
enters as `Option String` (`none` when the call throws) and the parser
as a function to an optional record of the fields the code reads.
`JSON.parse` succeeding on a non-object (for example a bare number) is
the parse function returning a record with every field absent. -/

/-- Fields of the parsed AI response that `enhanceProductCopy` reads. -/
structure ParsedCopy where
  verdict : Option String := none
  headline : Option String := none
  bulletPoints : Option (List String) := none
  callToAction : Option String := none
  faqs : Option (List (String × String)) := none
  urgencyHook : Option String := none
deriving DecidableEq

/-- Final copy record produced by `enhanceProductCopy`. -/
structure EnhancedCopy where
  verdict : String
  headline : String
  bulletPoints : List String
  callToAction : String
  faqs : List (String × String)
  urgencyHook : String
deriving DecidableEq

/-- JS `a || b` for a possibly-absent string `a` (absent and `""` are
falsy). -/
def jsOrStr (a : Option String) (b : String) : String :=
  match a with
  | some s => if s = "" then b else s
  | none => b

/-- Embedding of `extractJSON`: `text.match(/\x7b[\s\S]*\x7d/)` matches
from the first `\x7b` that has some later `\x7d` through the last `\x7d`
of the whole text (the quantifier is greedy and `[\s\S]` matches
everything), and the function falls back to `"\x7b\x7d"` when there is
no match.  Since the end of any match is the last `\x7d`, a match exists
exactly when the first `\x7b` precedes the last `\x7d`. -/
def extractJSON (text : String) : String :=
  let cs := text.data
  match cs.findIdx? (fun c => c = lbrace), (cs.reverse.findIdx? (fun c => c = rbrace)) with
  | some i, some jr =>
      let j := cs.length - 1 - jr
      if i < j then String.mk ((cs.drop i).take (j - i + 1)) else String.mk [lbrace, rbrace]
  | _, _ => String.mk [lbrace, rbrace]

/-- The default copy produced when the AI call or the JSON parse fails
(the `catch` block of `enhanceProductCopy`). -/
def defaultCopy (product : ProductDetails) : EnhancedCopy :=
  { verdict := jsOrStr product.verdict ""
    headline := jsOrStr (some product.title) ""
    bulletPoints := product.evidenceClaims.getD []
    callToAction := "Check Price on Amazon"
    faqs := product.faqs.getD []
    urgencyHook := "" }

/-- Embedding of `enhanceProductCopy`.  The prompt construction only
feeds the external provider and is elided; `aiResponse` is the settled
provider outcome and `parse` the `JSON.parse` collaborator. -/
def enhanceProductCopy (product : ProductDetails) (aiResponse : Option String)
    (parse : String → Option ParsedCopy) : EnhancedCopy :=
  match aiResponse with
  | none => defaultCopy product
  | some text =>
      match parse (extractJSON text) with
      | none => defaultCopy product
      | some parsed =>
          { verdict := jsOrStr parsed.verdict (jsOrStr product.verdict "")
            headline := jsOrStr parsed.headline (jsOrStr (some product.title) "")
            bulletPoints :=
              match parsed.bulletPoints with
              | some bs => bs
              | none => product.evidenceClaims.getD []
            callToAction := jsOrStr parsed.callToAction "Check Price on Amazon"
            faqs :=
              match parsed.faqs with
              | some fs => fs
              | none => product.faqs.getD []
            urgencyHook := jsOrStr parsed.urgencyHook "" }

/-- Scanner for `firstBraceBlock`: collect until the close matching the
already-seen first opening brace, tracking nesting depth. -/
def braceDepthScan : List Char → Nat → List Char → Option String
  | [], _, _ => none
  | c :: rest, depth, acc =>
      if c = rbrace then
        if depth = 0 then some (String.mk (acc.reverse ++ [rbrace]))
        else braceDepthScan rest (depth - 1) (c :: acc)
      else if c = lbrace then braceDepthScan rest (depth + 1) (c :: acc)
      else braceDepthScan rest depth (c :: acc)

/-- Skip to the first opening brace (see `firstBraceBlock`). -/
def firstBraceBlockGo : List Char → Option String
  | [] => none
  | c :: rest => if c = lbrace then braceDepthScan rest 0 [lbrace] else firstBraceBlockGo rest

/-- Modelled from the spec ("pipeline extracts the first well-formed
JSON object from the text"): the first brace-balanced block of the text,
i.e. the substring from the first opening brace to its matching closing
brace.  This is the claimed extraction behaviour that claim C9
attributes to `extractJSON`, stated for comparison with the code's
greedy first-to-last span. -/
def firstBraceBlock (text : String) : Option String :=
  firstBraceBlockGo text.data

/-! ## The audit targets of the tsx deep audit -/

/-- The audit targets, `Array.from(postMap.values())` after the quick
pass. -/
def auditTargets (classify : String → String → PostAnalysis) (posts : List BlogPost) :
    List BlogPost :=
  (quickAuditMap classify posts).map Prod.snd

/-- Canonical deep-write list of an audit (used as the reference
completion order). -/
def canonicalWrites (classify : String → String → PostAnalysis)
    (oracle : String → Option String) (posts : List BlogPost) : List (String × BlogPost) :=
  deepWrites classify oracle (auditTargets classify posts)

/-! ## Concrete scenario data used by counterexamples and witnesses -/

/-- A long HTML block (72 characters) used in placement scenarios; its
text mentions the scenario product titles. -/
def demoBlock (i : Nat) : EditorNode :=
  { id := toString i
    type := NodeType.HTML
    content := some ("paragraph body with alpha bravo useful words and padding number " ++ toString i) }

/-- Twelve-block demo document. -/
def demoDoc : List EditorNode :=
  [demoBlock 0, demoBlock 1, demoBlock 2, demoBlock 3, demoBlock 4, demoBlock 5,
   demoBlock 6, demoBlock 7, demoBlock 8, demoBlock 9, demoBlock 10, demoBlock 11]

/-- Hinted candidate of the C3 witness scenario. -/
def demoCandA : ProductDetails :=
  { id := "a", title := "alpha bravo", paragraphIndex := some 2, confidence := some 1 }

/-- Unhinted candidate of the C3 witness scenario. -/
def demoCandB : ProductDetails :=
  { id := "b", title := "alpha bravo", confidence := some 1 }

/-- Event trace of the C4 witness: two overlapping calls for the same
key, a settlement, then a third call. -/
def demoTrace : List DedupEvent :=
  [DedupEvent.call "k", DedupEvent.call "k", DedupEvent.settle 0 true, DedupEvent.call "k"]

/-- State reached by `demoTrace`. -/
def demoDedupState : DedupState := { pending := [("k", 1)], nextOp := 2 }

/-- Call records produced by `demoTrace`. -/
def demoDedupRecs : List CallRecord :=
  [⟨"k", 0, true⟩, ⟨"k", 0, false⟩, ⟨"k", 1, true⟩]

/-- Two-page inventory for the audit witnesses. -/
def demoPosts : List BlogPost :=
  [{ id := 1, title := "first", url := "https://ex.com/1" },
   { id := 2, title := "second", url := "https://ex.com/2" }]

/-- Constant classifier used by the audit witnesses. -/
def demoClassify (_title _content : String) : PostAnalysis :=
  { priority := PostPriority.high, type := "post", status := MonetizationStatus.opportunity }

/-- Fetch oracle of the audit witnesses: the first page fetches, the
second fails. -/
def demoOracle (url : String) : Option String :=
  if url = "https://ex.com/1" then some "body content" else none

/-- Fetch oracle under which every page fetch succeeds. -/
def demoOracleBoth (url : String) : Option String :=
  some ("content of " ++ url)

/-- Text of the C9 counterexample: two JSON objects with junk between
and around them. -/
def demoTwoObjects : String := "a\x7b\"v\":1\x7db\x7b\"w\":2\x7dc"

/-- Product record of the C9 witness. -/
def demoCopyProduct : ProductDetails :=
  { id := "B000TEST00", title := "Demo Widget", verdict := some "solid"
    evidenceClaims := some ["claim one", "claim two"]
    faqs := some [("q1", "a1")] }

/-- Legacy detector output of the C8 witness. -/
def demoLegacy : LegacyResult :=
  { detectedProducts := [{ id := "L1", title := "Legacy Product" }]
    comparison := some { productIds := ["L1"], specKeys := ["Weight"] } }

/-! # Theorems -/

/-! ## C1: relevance score -/

/-- Claim C1 counterexample.  The claim awards the +1000 exact-mention
bonus at a match share of at least 70%, but the code (`ratio > 0.7`)
demands strictly more: on a block containing exactly 7 of the 10
significant mention words, `calculateRelevance` scores 0 while the
claimed formula scores 1000. -/
theorem calculateRelevance_seventy_percent_counterexample :
    calculateRelevance c1Block c1Product = 0
  ∧ specRelevanceClaimed c1Block c1Product = 1000
  ∧ calculateRelevance c1Block c1Product ≠ specRelevanceClaimed c1Block c1Product := by
  decide

/-- Claim C1, amended: for every text block and candidate, the score
computed by `calculateRelevance` equals the sum of +1000 when strictly
more than 70% of the exact-mention significant words appear in the
lowercased block, +100 for a full title match, +50 for a brand match,
+10 per significant title word present, and −10 when the block is under
50 characters and the sum so far is below 50. -/
theorem calculateRelevance_eq_specRelevanceStrict (text : String) (product : ProductDetails) :
    calculateRelevance text product = specRelevanceStrict text product := by
  unfold calculateRelevance specRelevanceStrict
  rcases product.exactMention with _ | em <;> rcases product.brand with _ | b <;>
    dsimp only [] <;> split_ifs <;> omega

/-! ## C2: batch placement ordering -/

/-- Every comparator-ordered pair satisfies the descriptive order
relation (unhinted first by confidence descending, then hinted by
paragraph index descending). -/
theorem candRel_afterSortRel (a b : ProductDetails) (h : candRel a b) : afterSortRel a b := by
  unfold candRel candLe at h
  unfold afterSortRel
  rcases ha : a.paragraphIndex with _ | x <;> rcases hb : b.paragraphIndex with _ | y <;>
    rw [ha, hb] at h
  · rw [if_pos rfl] at h
    exact of_decide_eq_true h
  · trivial
  · rw [if_neg (by simp)] at h
    simp [hintLT] at h
  · by_cases hxy : x = y
    · subst hxy
      rw [if_pos rfl] at h
      exact Or.inr ⟨rfl, of_decide_eq_true h⟩
    · rw [if_neg (by simpa using hxy)] at h
      simp only [hintLT] at h
      exact Or.inl (of_decide_eq_true h)

/-- Claim C2 counterexample.  A hinted candidate (paragraph hint 0,
confidence 1) is sorted after an unhinted one (confidence 0): the
`?? Infinity` key makes unhinted candidates the largest under the
descending sort, so they claim positions first, contrary to the claim
that every hinted candidate precedes every unhinted one. -/
theorem sortCandidates_hinted_last_counterexample :
    sortCandidates [c2Hinted, c2Unhinted] = [c2Unhinted, c2Hinted]
  ∧ c2Hinted.paragraphIndex = some 0
  ∧ c2Unhinted.paragraphIndex = none := by
  decide

/-- Claim C2, amended: the batch auto-populate order is a permutation of
the unplaced candidates in which every unhinted candidate precedes every
hinted one; unhinted candidates are ordered by confidence descending and
hinted candidates by paragraph-index hint descending (ties by confidence
descending). -/
theorem sortCandidates_order (l : List ProductDetails) :
    (sortCandidates l).Perm l ∧ (sortCandidates l).Pairwise afterSortRel := by
  refine ⟨List.perm_insertionSort candRel l, ?_⟩
  exact (List.sorted_insertionSort candRel l).imp (fun {a b} h => candRel_afterSortRel a b h)

/-! ## C7 and C10: the TTL cache -/

/-- Raw read of a freshly written key. -/
theorem storeRead_storeWrite_self {V : Type} (st : CacheStore V) (k : String)
    (v : Option (V × Option Nat)) : storeRead (storeWrite st k v) k = some v := by
  induction st with
  | nil => simp [storeRead, storeWrite]
  | cons e rest ih =>
      by_cases h : e.1 = k
      · simp [storeWrite, h, storeRead]
      · simpa [storeWrite, storeRead, List.find?, h] using ih

/-- Claim C7 counterexample.  The claim quantifies over every TTL, but a
TTL of 0 is falsy in `set` (`ttlMs ? Date.now() + ttlMs : undefined`),
so the entry is stored without expiry: a read taken long after the TTL
has elapsed still returns the value instead of absent. -/
theorem cacheGet_ttl_zero_counterexample :
    cacheGet (cacheSet ([] : CacheStore Nat) 100 "k" 7 (some 0) false) 1000 "k" false
      = (some 7, [("k", some (7, none))])
  ∧ 100 + 0 < 1000 := by
  decide

/-- Claim C7, amended: for every positive TTL `t`, a value written at
instant `now` is returned by a `get` taken before `now + t` and is
reported absent — with the entry removed — by a `get` taken after
`now + t`. -/
theorem cacheSet_get_ttl {V : Type} (st : CacheStore V) (now now' t : Nat) (k : String)
    (v : V) (ht : 0 < t) :
    (now' < now + t → cacheGet (cacheSet st now k v (some t) false) now' k false
        = (some v, cacheSet st now k v (some t) false))
  ∧ (now + t < now' → cacheGet (cacheSet st now k v (some t) false) now' k false
        = (none, storeRemove (cacheSet st now k v (some t) false) k)) := by
  have hw : cacheSet st now k v (some t) false = storeWrite st k (some (v, some (now + t))) := by
    simp [cacheSet, show t ≠ 0 from by omega]
  constructor
  · intro hb
    rw [hw]
    simp [cacheGet, storeRead_storeWrite_self, show ¬ (now + t < now') from by omega]
  · intro ha
    rw [hw]
    simp [cacheGet, storeRead_storeWrite_self, show now + t ≠ 0 from by omega, ha]

/-- Witness for the amended C7 theorem at concrete instants. -/
theorem cacheSet_get_ttl_witness :
    cacheGet (cacheSet ([] : CacheStore Nat) 100 "k" 7 (some 50) false) 149 "k" false
      = (some 7, cacheSet ([] : CacheStore Nat) 100 "k" 7 (some 50) false)
  ∧ cacheGet (cacheSet ([] : CacheStore Nat) 100 "k" 7 (some 50) false) 151 "k" false
      = (none, storeRemove (cacheSet ([] : CacheStore Nat) 100 "k" 7 (some 50) false) "k") :=
  ⟨(cacheSet_get_ttl [] 100 149 50 "k" 7 (by decide)).1 (by decide),
   (cacheSet_get_ttl [] 100 151 50 "k" 7 (by decide)).2 (by decide)⟩

/-- Claim C10: every cache operation is total and absorbs faults.  A
storage-layer fault makes `get` read absent and leaves the store alone;
a missing key and a malformed entry read absent; faults in `set`,
`delete` and `clear` leave the store untouched.  (Totality itself is
carried by the operations being plain functions into non-exceptional
result types.) -/
theorem cacheService_absorbs_faults {V : Type} (st : CacheStore V) (now : Nat) (k : String)
    (v : V) (ttl : Option Nat) :
    cacheGet st now k true = (none, st)
  ∧ (storeRead st k = none → cacheGet st now k false = (none, st))
  ∧ (storeRead st k = some none → cacheGet st now k false = (none, st))
  ∧ cacheSet st now k v ttl true = st
  ∧ cacheDelete st k true = st
  ∧ cacheClear st true = st := by
  refine ⟨rfl, ?_, ?_, rfl, rfl, rfl⟩ <;> intro h <;> simp [cacheGet, h]

/-- Witness for the C10 theorem: an empty store misses, and a store
holding one malformed entry reads it as absent without raising. -/
theorem cacheService_absorbs_faults_witness :
    cacheGet ([] : CacheStore Nat) 5 "k" false = (none, [])
  ∧ cacheGet ([("m", none)] : CacheStore Nat) 5 "m" false = (none, [("m", none)]) :=
  ⟨(cacheService_absorbs_faults ([] : CacheStore Nat) 5 "k" 0 none).2.1 (by decide),
   (cacheService_absorbs_faults ([("m", none)] : CacheStore Nat) 5 "m" 0 none).2.2.1 (by decide)⟩

/-! ## C9: copy enhancement -/

/-- Claim C9 counterexample.  On a text holding two JSON objects the
greedy regex of `extractJSON` spans from the first opening brace to the
last closing brace, which is not the first JSON object of the text. -/
theorem extractJSON_not_first_object_counterexample :
    extractJSON demoTwoObjects = "\x7b\"v\":1\x7db\x7b\"w\":2\x7d"
  ∧ firstBraceBlock demoTwoObjects = some "\x7b\"v\":1\x7d"
  ∧ extractJSON demoTwoObjects ≠ "\x7b\"v\":1\x7d" := by
  decide

/-- Claim C9, amended: `enhanceProductCopy` passes the greedy
first-brace-to-last-brace span of the response to the JSON parser, and
on a failed AI call or a failed parse it returns the complete
`EnhancedCopy` built from the product's field-level defaults — a parse
error is never propagated. -/
theorem enhanceProductCopy_defaults_on_failure (product : ProductDetails)
    (parse : String → Option ParsedCopy) :
    enhanceProductCopy product none parse = defaultCopy product
  ∧ (∀ text, parse (extractJSON text) = none →
      enhanceProductCopy product (some text) parse = defaultCopy product) := by
  refine ⟨rfl, fun text h => ?_⟩
  simp only [enhanceProductCopy]
  rw [h]

/-- Witness for the amended C9 theorem: a parser rejecting the
two-object span yields the defaults. -/
theorem enhanceProductCopy_defaults_witness :
    enhanceProductCopy demoCopyProduct (some demoTwoObjects) (fun _ => none)
      = defaultCopy demoCopyProduct :=
  (enhanceProductCopy_defaults_on_failure demoCopyProduct (fun _ => none)).2
    demoTwoObjects rfl

/-! ## C8: deep-scan fallback -/

/-- Claim C8: when the precision detector is unavailable, throws
(`tryPrecisionDetect` returns null), or yields zero products, the legacy
detector's products and comparison are the ones merged and returned, in
the unified result shape. -/
theorem runDeepScan_uses_legacy_on_degraded (nodes : List EditorNode)
    (productMap : List (String × ProductDetails)) (precision : Option PrecisionResult)
    (legacy : LegacyResult)
    (hHtml : ¬ (currentHtmlOf nodes = "" ∨ (trimWS (currentHtmlOf nodes).data).length < 50))
    (hDegraded : ∀ pr, precision = some pr → pr.products = []) :
    ∃ r, runDeepScan true nodes productMap precision legacy = Except.ok r
      ∧ r.products = legacy.detectedProducts
      ∧ r.comparison = legacy.comparison
      ∧ r.candidateCount = legacy.detectedProducts.length
      ∧ r.usedFallback = true
      ∧ r.productMap = (if 0 < legacy.detectedProducts.length
            then legacy.detectedProducts.foldl productMapSet productMap else productMap) := by
  unfold runDeepScan
  rw [if_neg (by simp), if_neg hHtml]
  rcases precision with _ | pr
  · exact ⟨_, rfl, rfl, rfl, rfl, rfl, rfl⟩
  · have hempty : pr.products = [] := hDegraded pr rfl
    dsimp only
    rw [hempty]
    exact ⟨_, rfl, rfl, rfl, rfl, rfl, rfl⟩

/-- Witness for the C8 theorem: a twelve-block document, an absent
precision module and a one-product legacy result. -/
theorem runDeepScan_uses_legacy_witness :
    ∃ r, runDeepScan true demoDoc [] none demoLegacy = Except.ok r
      ∧ r.products = demoLegacy.detectedProducts
      ∧ r.comparison = demoLegacy.comparison
      ∧ r.candidateCount = demoLegacy.detectedProducts.length
      ∧ r.usedFallback = true
      ∧ r.productMap = (if 0 < demoLegacy.detectedProducts.length
            then demoLegacy.detectedProducts.foldl productMapSet [] else []) :=
  runDeepScan_uses_legacy_on_degraded demoDoc [] none demoLegacy (by decide)
    (fun pr h => nomatch h)

/-! ## C5: order-independence of the deep-audit merge -/

/-- Membership in a `mapSet` result. -/
theorem mapSet_mem {β : Type} (m : List (String × β)) (k : String) (v : β) :
    ∀ e ∈ mapSet m k v, e = (k, v) ∨ e ∈ m := by
  induction m with
  | nil => simp [mapSet]
  | cons e' rest ih =>
      intro e he
      simp only [mapSet] at he
      by_cases h : e'.1 = k
      · rw [if_pos h] at he
        rcases List.mem_cons.mp he with he | he
        · exact Or.inl he
        · exact Or.inr (List.mem_cons_of_mem _ he)
      · rw [if_neg h] at he
        rcases List.mem_cons.mp he with he | he
        · subst he
          exact Or.inr (List.mem_cons_self _ _)
        · rcases ih e he with h' | h'
          · exact Or.inl h'
          · exact Or.inr (List.mem_cons_of_mem _ h')

/-- Key list of a `mapSet` result. -/
theorem mapSet_map_fst {β : Type} (m : List (String × β)) (k : String) (v : β) :
    (mapSet m k v).map Prod.fst
      = (if k ∈ m.map Prod.fst then m.map Prod.fst else m.map Prod.fst ++ [k]) := by
  induction m with
  | nil => simp [mapSet]
  | cons e rest ih =>
      by_cases h : e.1 = k
      · simp [mapSet, h]
      · have hne : ¬ k = e.1 := fun hh => h hh.symm
        by_cases hmem : k ∈ rest.map Prod.fst
        · simp [mapSet, h, hmem, hne, ih]
        · simp [mapSet, h, hmem, hne, ih]

/-- `mapSet` preserves key distinctness. -/
theorem mapSet_keys_nodup {β : Type} (m : List (String × β)) (k : String) (v : β)
    (h : (m.map Prod.fst).Nodup) : ((mapSet m k v).map Prod.fst).Nodup := by
  rw [mapSet_map_fst]
  by_cases hmem : k ∈ m.map Prod.fst
  · rwa [if_pos hmem]
  · rw [if_neg hmem]
    rw [List.nodup_append]
    refine ⟨h, List.nodup_singleton k, ?_⟩
    intro a ha hak
    rw [List.mem_singleton] at hak
    exact hmem (hak ▸ ha)

/-- A `mapSet` fold preserves key distinctness. -/
theorem foldl_mapSet_keys_nodup {α β : Type} (f : α → String) (g : α → β) :
    ∀ (l : List α) (m : List (String × β)), (m.map Prod.fst).Nodup →
      ((l.foldl (fun acc x => mapSet acc (f x) (g x)) m).map Prod.fst).Nodup := by
  intro l
  induction l with
  | nil => intro m h; exact h
  | cons x xs ih => intro m h; exact ih _ (mapSet_keys_nodup m (f x) (g x) h)

/-- A `mapSet` fold preserves an entry predicate that holds of every
written pair. -/
theorem foldl_mapSet_entry_pred {α β : Type} (P : String × β → Prop) (f : α → String)
    (g : α → β) (hfg : ∀ x, P (f x, g x)) :
    ∀ (l : List α) (m : List (String × β)), (∀ e ∈ m, P e) →
      ∀ e ∈ l.foldl (fun acc x => mapSet acc (f x) (g x)) m, P e := by
  intro l
  induction l with
  | nil => intro m h; exact h
  | cons x xs ih =>
      intro m h
      refine ih _ (fun e he => ?_)
      rcases mapSet_mem m (f x) (g x) e he with h' | h'
      · exact h' ▸ hfg x
      · exact h e h'

/-- The quick-pass audit map has pairwise-distinct url keys. -/
theorem quickAuditMap_keys_nodup (classify : String → String → PostAnalysis)
    (posts : List BlogPost) : ((quickAuditMap classify posts).map Prod.fst).Nodup := by
  unfold quickAuditMap
  exact foldl_mapSet_keys_nodup BlogPost.url (applyQuick classify) posts _
    (foldl_mapSet_keys_nodup BlogPost.url id posts [] (by simp))

/-- Every entry of the quick-pass map stores a page whose url is its
key. -/
theorem quickAuditMap_url_eq_key (classify : String → String → PostAnalysis)
    (posts : List BlogPost) : ∀ e ∈ quickAuditMap classify posts, e.2.url = e.1 := by
  unfold quickAuditMap
  refine foldl_mapSet_entry_pred (fun e => e.2.url = e.1) BlogPost.url (applyQuick classify)
    (fun p => rfl) posts _
    (foldl_mapSet_entry_pred (fun e => e.2.url = e.1) BlogPost.url id (fun p => rfl) posts []
      (by simp))

/-- The urls of the audit targets are exactly the keys of the quick-pass
map. -/
theorem auditTargets_urls_eq_keys (classify : String → String → PostAnalysis)
    (posts : List BlogPost) :
    (auditTargets classify posts).map BlogPost.url = (quickAuditMap classify posts).map Prod.fst := by
  unfold auditTargets
  rw [List.map_map]
  exact List.map_congr_left (fun e he => quickAuditMap_url_eq_key classify posts e he)

/-- The deep-write keys form a sublist of the target urls. -/
theorem deepWrites_keys_sublist (classify : String → String → PostAnalysis)
    (oracle : String → Option String) (targets : List BlogPost) :
    ((deepWrites classify oracle targets).map Prod.fst).Sublist (targets.map BlogPost.url) := by
  induction targets with
  | nil => simp [deepWrites]
  | cons t ts ih =>
      unfold deepWrites at ih ⊢
      rcases h : oracle t.url with _ | content
      · simp only [List.filterMap_cons, h]
        exact ih.cons t.url
      · simp only [List.filterMap_cons, h, List.map_cons]
        exact ih.cons₂ t.url

/-- The canonical deep-write list of an audit has pairwise-distinct
keys, each of them a key of the quick-pass map. -/
theorem canonicalWrites_keys (classify : String → String → PostAnalysis)
    (oracle : String → Option String) (posts : List BlogPost) :
    ((canonicalWrites classify oracle posts).map Prod.fst).Nodup
  ∧ ∀ w ∈ canonicalWrites classify oracle posts,
      w.1 ∈ (quickAuditMap classify posts).map Prod.fst := by
  have hsub := deepWrites_keys_sublist classify oracle (auditTargets classify posts)
  rw [auditTargets_urls_eq_keys] at hsub
  refine ⟨hsub.nodup (quickAuditMap_keys_nodup classify posts), fun w hw => ?_⟩
  exact hsub.subset (List.mem_map_of_mem Prod.fst hw)

/-- With distinct keys, `mapSet` is the pointwise in-place update. -/
theorem mapSet_eq_update {β : Type} (m : List (String × β)) (k : String) (v : β)
    (hmem : k ∈ m.map Prod.fst) (hnodup : (m.map Prod.fst).Nodup) :
    mapSet m k v = m.map (fun e => if e.1 = k then (k, v) else e) := by
  induction m with
  | nil => simp at hmem
  | cons e rest ih =>
      simp only [mapSet, List.map_cons]
      rw [List.map_cons] at hmem
      rcases List.mem_cons.mp hmem with h | h
      · have he : e.1 = k := h.symm
        rw [if_pos he, if_pos he]
        have hk : k ∉ rest.map Prod.fst := by
          have := (List.nodup_cons.mp hnodup).1
          rwa [he] at this
        have hrest : rest.map (fun e => if e.1 = k then (k, v) else e) = rest := by
          refine (List.map_congr_left ?_).trans (List.map_id rest)
          intro a ha
          have hne : ¬ a.1 = k := by
            intro hh
            exact hk (hh ▸ List.mem_map_of_mem Prod.fst ha)
          rw [if_neg hne]
          rfl
        rw [hrest]
      · have he : ¬ e.1 = k := by
          intro hh
          refine (List.nodup_cons.mp hnodup).1 ?_
          rw [hh]
          exact h
        rw [if_neg he, if_neg he, ih h (List.nodup_cons.mp hnodup).2]

/-- Merging a write list whose keys are distinct and already present is
the pointwise override. -/
theorem auditMerge_eq_override (ws : List (String × BlogPost)) :
    ∀ (m : List (String × BlogPost)), (m.map Prod.fst).Nodup →
      (∀ w ∈ ws, w.1 ∈ m.map Prod.fst) → ((ws.map Prod.fst).Nodup) →
      auditMerge m ws = auditOverride m ws := by
  induction ws with
  | nil =>
      intro m _ _ _
      simp [auditMerge, auditOverride]
  | cons w ws ih =>
      intro m hm hkeys hnodup
      have hw1 : w.1 ∈ m.map Prod.fst := hkeys w (List.mem_cons_self w ws)
      have hstep : auditMerge m (w :: ws) = auditMerge (mapSet m w.1 w.2) ws := rfl
      have hkeys' : (mapSet m w.1 w.2).map Prod.fst = m.map Prod.fst := by
        rw [mapSet_map_fst, if_pos hw1]
      have hm' : ((mapSet m w.1 w.2).map Prod.fst).Nodup := by rwa [hkeys']
      have hks : ∀ w' ∈ ws, w'.1 ∈ (mapSet m w.1 w.2).map Prod.fst := by
        intro w' hw'
        rw [hkeys']
        exact hkeys w' (List.mem_cons_of_mem w hw')
      have hnd : (ws.map Prod.fst).Nodup := (List.nodup_cons.mp hnodup).2
      rw [hstep, ih _ hm' hks hnd]
      have hwnotin : w.1 ∉ ws.map Prod.fst := (List.nodup_cons.mp hnodup).1
      have hfind : ws.find? (fun w' => decide (w'.1 = w.1)) = none := by
        rw [List.find?_eq_none]
        intro x hx
        simp only [decide_eq_true_eq]
        intro hx1
        exact hwnotin (hx1 ▸ List.mem_map_of_mem Prod.fst hx)
      rw [mapSet_eq_update m w.1 w.2 hw1 hm]
      unfold auditOverride
      rw [List.map_map]
      apply List.map_congr_left
      intro e _
      simp only [Function.comp_apply]
      by_cases hke : e.1 = w.1
      · rw [if_pos hke]
        have hde : decide (w.1 = e.1) = true := decide_eq_true hke.symm
        rw [List.find?_cons, hde]
        dsimp only
        rw [hfind]
        dsimp only
        rw [hke]
      · rw [if_neg hke]
        have hde : decide (w.1 = e.1) = false :=
          decide_eq_false (fun hh => hke hh.symm)
        rw [List.find?_cons, hde]

/-- A found entry is unique when keys are distinct. -/
theorem find?_key_of_unique {β : Type} (ws : List (String × β)) (k : String)
    (w : String × β) (hnodup : (ws.map Prod.fst).Nodup) (hw : w ∈ ws) (hk : w.1 = k) :
    ws.find? (fun e => e.1 = k) = some w := by
  induction ws with
  | nil => simp at hw
  | cons e rest ih =>
      rcases List.mem_cons.mp hw with h | h
      · subst h
        simp [List.find?_cons, hk]
      · have hek : ¬ e.1 = k := by
          intro hh
          exact (List.nodup_cons.mp hnodup).1
            ((hh.trans hk.symm) ▸ List.mem_map_of_mem Prod.fst h)
        simp only [List.find?_cons]
        have : (decide (e.1 = k)) = false := by simpa using hek
        rw [this]
        exact ih (List.nodup_cons.mp hnodup).2 h

/-- Keyed lookup in a write list is permutation-invariant when keys are
distinct. -/
theorem find?_key_perm {β : Type} (ws ws' : List (String × β)) (hperm : ws.Perm ws')
    (hnodup : (ws.map Prod.fst).Nodup) (k : String) :
    ws.find? (fun e => e.1 = k) = ws'.find? (fun e => e.1 = k) := by
  by_cases hmem : ∃ w ∈ ws, w.1 = k
  · rcases hmem with ⟨w, hw, hk⟩
    rw [find?_key_of_unique ws k w hnodup hw hk,
      find?_key_of_unique ws' k w ((hperm.map Prod.fst).nodup_iff.mp hnodup)
        (hperm.mem_iff.mp hw) hk]
  · push_neg at hmem
    rw [List.find?_eq_none.mpr (fun x hx => by
        simpa using hmem x hx),
      List.find?_eq_none.mpr (fun x hx => by
        simpa using hmem x (hperm.mem_iff.mpr hx))]

/-- Pointwise override is permutation-invariant in the write list. -/
theorem auditOverride_perm (m : List (String × BlogPost)) (ws ws' : List (String × BlogPost))
    (hperm : ws.Perm ws') (hnodup : (ws.map Prod.fst).Nodup) :
    auditOverride m ws = auditOverride m ws' := by
  unfold auditOverride
  apply List.map_congr_left
  intro e _
  rw [find?_key_perm ws ws' hperm hnodup e.1]

/-- Claim C5: for every audit, every fetch-completion order yields the
same merged map as the canonical order — each page merges under its url
key and each key has exactly one writer (distinct write keys). -/
theorem runDeepAudit_order_independent (classify : String → String → PostAnalysis)
    (oracle : String → Option String) (posts : List BlogPost)
    (order : List (String × BlogPost))
    (h : order.Perm (canonicalWrites classify oracle posts)) :
    runDeepAuditTsx classify oracle posts order
      = runDeepAuditTsx classify oracle posts (canonicalWrites classify oracle posts)
  ∧ ((canonicalWrites classify oracle posts).map Prod.fst).Nodup := by
  obtain ⟨hnodup, hkeys⟩ := canonicalWrites_keys classify oracle posts
  have hordnodup : (order.map Prod.fst).Nodup :=
    (h.map Prod.fst).nodup_iff.mpr hnodup
  have hordkeys : ∀ w ∈ order, w.1 ∈ (quickAuditMap classify posts).map Prod.fst :=
    fun w hw => hkeys w (h.mem_iff.mp hw)
  have hqnodup := quickAuditMap_keys_nodup classify posts
  refine ⟨?_, hnodup⟩
  unfold runDeepAuditTsx
  rw [auditMerge_eq_override order _ hqnodup hordkeys hordnodup,
    auditMerge_eq_override (canonicalWrites classify oracle posts) _ hqnodup hkeys hnodup]
  exact auditOverride_perm _ order _ h hordnodup

/-- Witness for the C5 theorem: the two-page audit merged in reversed
completion order equals the canonical merge. -/
theorem runDeepAudit_order_independent_witness :
    runDeepAuditTsx demoClassify demoOracleBoth demoPosts
        (canonicalWrites demoClassify demoOracleBoth demoPosts).reverse
      = runDeepAuditTsx demoClassify demoOracleBoth demoPosts
          (canonicalWrites demoClassify demoOracleBoth demoPosts)
  ∧ ((canonicalWrites demoClassify demoOracleBoth demoPosts).map Prod.fst).Nodup :=
  runDeepAudit_order_independent demoClassify demoOracleBoth demoPosts _
    (List.reverse_perm _)

/-! ## C6: monotone progress reaching N exactly once -/

/-- Progress reports accumulated by a fold of `processPost`: one
increment per completion, appended in completion order. -/
theorem processPost_reports (classify : String → String → PostAnalysis)
    (oracle : String → Option String) (n : Nat) :
    ∀ (order : List Nat) (arr : List BlogPost) (c : Nat) (rs : List (Nat × Nat)),
      (order.foldl (processPost classify oracle n) (arr, c, rs)).2.2
        = rs ++ (List.range order.length).map (fun j => (c + j + 1, n)) := by
  intro order
  induction order with
  | nil => intro arr c rs; simp
  | cons i rest ih =>
      intro arr c rs
      rw [List.foldl_cons]
      have hstep : processPost classify oracle n (arr, c, rs) i
          = ((processPost classify oracle n (arr, c, rs) i).1, c + 1, rs ++ [(c + 1, n)]) := rfl
      rw [hstep, ih]
      rw [List.length_cons, List.range_succ_eq_map, List.map_cons, List.map_map]
      simp only [List.append_assoc, List.singleton_append]
      congr 2
      apply List.map_congr_left
      intro j _
      simp only [Function.comp_apply, Nat.succ_eq_add_one]
      congr 1
      omega

/-- Claim C6: under every completion order of the page fetches, the
progress values reported by the scanner's deep audit are monotonically
non-decreasing and reach the page count exactly once. -/
theorem runDeepAuditScanner_progress (classify : String → String → PostAnalysis)
    (oracle : String → Option String) (posts : List BlogPost) (order : List Nat)
    (h : order.Perm (List.range posts.length)) :
    ((runDeepAuditScanner classify oracle posts order).2.map Prod.fst).Pairwise (· ≤ ·)
  ∧ (posts ≠ [] →
      ((runDeepAuditScanner classify oracle posts order).2.map Prod.fst).count
        posts.length = 1) := by
  have hlen : order.length = posts.length := h.length_eq.trans (List.length_range _)
  by_cases hp : posts.isEmpty
  · have : posts = [] := List.isEmpty_iff.mp hp
    subst this
    constructor
    · simp [runDeepAuditScanner]
    · intro hne
      exact absurd rfl hne
  · have hreports : (runDeepAuditScanner classify oracle posts order).2
        = [(0, posts.length)]
            ++ (List.range order.length).map (fun j => (j + 1, posts.length)) := by
      unfold runDeepAuditScanner
      rw [if_neg (by simpa using hp)]
      rw [processPost_reports]
      simp
    have hfst : (runDeepAuditScanner classify oracle posts order).2.map Prod.fst
        = 0 :: (List.range posts.length).map (fun j => j + 1) := by
      rw [hreports, hlen]
      simp
    constructor
    · rw [hfst]
      refine List.Pairwise.cons (fun b hb => Nat.zero_le b) ?_
      exact (List.pairwise_lt_range posts.length).map _
        (fun a b hab => by omega)
    · intro hne
      have hpos : 0 < posts.length := List.length_pos.mpr hne
      rw [hfst]
      rw [List.count_cons]
      have h0 : ¬ (0 = posts.length) := fun hh => by omega
      have hmapped : (List.range posts.length).map (fun j => j + 1)
          = List.range' 1 posts.length := by
        rw [List.range'_eq_map_range]
        apply List.map_congr_left
        intro j _
        omega
      rw [hmapped]
      have hcount : (List.range' 1 posts.length).count posts.length = 1 :=
        List.count_eq_one_of_mem (List.nodup_range' 1 posts.length)
          (List.mem_range'.mpr ⟨posts.length - 1, by omega, by omega⟩)
      simp [hcount, h0, Ne.symm]

/-- Witness for the C6 theorem: two pages completing in reversed order
report 0, 1, 2 — non-decreasing and reaching 2 exactly once. -/
theorem runDeepAuditScanner_progress_witness :
    ((runDeepAuditScanner demoClassify demoOracle demoPosts [1, 0]).2.map Prod.fst).Pairwise
        (· ≤ ·)
  ∧ ((runDeepAuditScanner demoClassify demoOracle demoPosts [1, 0]).2.map Prod.fst).count
        demoPosts.length = 1 :=
  ⟨(runDeepAuditScanner_progress demoClassify demoOracle demoPosts [1, 0] (by decide)).1,
   (runDeepAuditScanner_progress demoClassify demoOracle demoPosts [1, 0] (by decide)).2
      (by decide)⟩

/-! ## C4: single-flight deduplication -/

/-- Splitting a run over an appended trace. -/
theorem dedupRunFrom_append (l₁ l₂ : List DedupEvent) :
    ∀ (st : DedupState) (recs : List CallRecord),
      dedupRunFrom st recs (l₁ ++ l₂)
        = (match dedupRunFrom st recs l₁ with
           | some (st', recs') => dedupRunFrom st' recs' l₂
           | none => none) := by
  induction l₁ with
  | nil => intro st recs; rfl
  | cons e l₁ ih =>
      intro st recs
      rw [List.cons_append]
      simp only [dedupRunFrom]
      rcases dedupStep st e with _ | ⟨st', _ | r⟩
      · rfl
      · exact ih st' recs
      · exact ih st' (recs ++ [r])

/-- A successful lookup exhibits a pending entry. -/
theorem lookupKey_mem (m : List (String × Nat)) (k : String) (o : Nat)
    (h : lookupKey m k = some o) : (k, o) ∈ m := by
  unfold lookupKey at h
  rcases hf : m.find? (fun e => e.1 == k) with _ | e
  · rw [hf] at h
    simp at h
  · rw [hf] at h
    simp only [Option.map_some'] at h
    have hm := List.mem_of_find?_eq_some hf
    have hp := List.find?_some hf
    simp only [beq_iff_eq] at hp
    have he : e = (k, o) := by
      cases e
      simp only [Option.some.injEq] at h
      simp_all
    exact he ▸ hm

/-- A lookup misses exactly when the key is absent. -/
theorem lookupKey_eq_none_iff (m : List (String × Nat)) (k : String) :
    lookupKey m k = none ↔ k ∉ m.map Prod.fst := by
  unfold lookupKey
  rw [Option.map_eq_none', List.find?_eq_none]
  constructor
  · intro h hk
    rcases List.mem_map.mp hk with ⟨e, he, hek⟩
    exact h e he (by simp [hek])
  · intro h e he
    simp only [beq_iff_eq]
    intro hek
    exact h (hek ▸ List.mem_map_of_mem Prod.fst he)

/-- With distinct keys, membership determines the lookup. -/
theorem lookupKey_eq_of_mem (m : List (String × Nat)) (k : String) (o : Nat)
    (hmem : (k, o) ∈ m) (hnodup : (m.map Prod.fst).Nodup) : lookupKey m k = some o := by
  induction m with
  | nil => simp at hmem
  | cons e rest ih =>
      rcases List.mem_cons.mp hmem with h | h
      · unfold lookupKey
        rw [List.find?_cons]
        have : (e.1 == k) = true := by rw [← h]; simp
        rw [this]
        rw [← h]
        rfl
      · have hek : ¬ e.1 = k := by
          intro hh
          refine (List.nodup_cons.mp hnodup).1 ?_
          rw [hh]
          exact List.mem_map_of_mem Prod.fst h
        unfold lookupKey
        rw [List.find?_cons]
        have : (e.1 == k) = false := by simpa using hek
        rw [this]
        exact ih h (List.nodup_cons.mp hnodup).2

/-- Appending a fresh entry makes its key found. -/
theorem lookupKey_append_self (m : List (String × Nat)) (k : String) (n : Nat)
    (h : lookupKey m k = none) : lookupKey (m ++ [(k, n)]) k = some n := by
  unfold lookupKey at h ⊢
  rw [List.find?_append]
  rw [Option.map_eq_none'] at h
  rw [h]
  simp

/-- Appending an entry leaves other keys' lookups unchanged. -/
theorem lookupKey_append_ne (m : List (String × Nat)) (k : String) (n : Nat) (k' : String)
    (h : ¬ k' = k) : lookupKey (m ++ [(k, n)]) k' = lookupKey m k' := by
  unfold lookupKey
  rw [List.find?_append]
  rcases hf : m.find? (fun e => e.1 == k') with _ | e
  · have : ((k, n).1 == k') = false := by simpa using fun hh => h hh.symm
    simp [List.find?_cons, this]
  · rw [hf]
    rfl

/-- Erasure removes its key. -/
theorem lookupKey_eraseKey_self (m : List (String × Nat)) (k : String) :
    lookupKey (eraseKey m k) k = none := by
  rw [lookupKey_eq_none_iff]
  intro hk
  rcases List.mem_map.mp hk with ⟨e, he, hek⟩
  have := (List.mem_filter.mp he).2
  simp [hek] at this

/-- Erasure leaves other keys' lookups unchanged. -/
theorem lookupKey_eraseKey_ne (m : List (String × Nat)) (k k' : String) (h : ¬ k' = k) :
    lookupKey (eraseKey m k) k' = lookupKey m k' := by
  induction m with
  | nil => rfl
  | cons e rest ih =>
      unfold eraseKey at ih ⊢
      rw [List.filter_cons]
      by_cases he : e.1 = k
      · have hcond : (!(e.1 == k)) = false := by simp [he]
        rw [hcond]
        simp only [Bool.false_eq_true, if_false]
        have hek' : (e.1 == k') = false := by
          simp only [beq_eq_false_iff_ne, ne_eq]
          intro hh
          exact h (hh ▸ he ▸ rfl)
        rw [ih]
        unfold lookupKey
        rw [List.find?_cons, hek']
      · have hcond : (!(e.1 == k)) = true := by simp [he]
        rw [hcond]
        simp only [if_true]
        unfold lookupKey
        rw [List.find?_cons, List.find?_cons]
        rcases hek' : (e.1 == k') with _ | _
        · exact ih
        · rfl

/-- Settlement flags across an appended trace. -/
theorem settled_append (l₁ l₂ : List DedupEvent) (o : Nat) :
    settled (l₁ ++ l₂) o = (settled l₁ o || settled l₂ o) :=
  List.any_append

/-- A call settles nothing. -/
theorem settled_single_call (k : String) (o : Nat) :
    settled [DedupEvent.call k] o = false := rfl

/-- Settlement flag of a single settle event. -/
theorem settled_single_settle (o' : Nat) (s : Bool) (o : Nat) :
    settled [DedupEvent.settle o' s] o = (o' == o) := by
  simp [settled]

/-- Settle counts across an appended trace. -/
theorem settleCount_append (l₁ l₂ : List DedupEvent) (o : Nat) :
    settleCount (l₁ ++ l₂) o = settleCount l₁ o + settleCount l₂ o := by
  unfold settleCount
  rw [List.filter_append, List.length_append]

/-- An unsettled operation has settle count zero. -/
theorem settled_false_iff_count_zero (evs : List DedupEvent) (o : Nat) :
    settled evs o = false ↔ settleCount evs o = 0 := by
  unfold settled settleCount
  rw [List.any_eq_false, List.length_eq_zero, List.filter_eq_nil]

open DedupEvent in
/-- State invariant of every valid deduplicator trace. -/
theorem dedupRun_inv (evs : List DedupEvent) :
    ∀ st recs, dedupRun evs = some (st, recs) → DedupInv evs st recs := by
  induction evs using List.reverseRecOn with
  | nil =>
      intro st recs h
      simp only [dedupRun, dedupRunFrom, Option.some.injEq, Prod.mk.injEq] at h
      obtain ⟨h1, h2⟩ := h
      subst h1
      subst h2
      refine ⟨?_, ?_, ?_, ?_, ?_, ?_, ?_, ?_⟩
      · intro k o
        simp [lookupKey]
      · intro o
        simp [settleCount]
      · intro r1 h1 r2 h2
        simp at h1
      · intro e he
        simp at he
      · intro r hr
        simp at hr
      · simp
      · simp
      · intro o ho
        simp [settled] at ho
  | append_singleton evs e ih =>
      intro st' recs' h
      rw [show dedupRun (evs ++ [e]) = dedupRunFrom ⟨[], 0⟩ [] (evs ++ [e]) from rfl,
        dedupRunFrom_append] at h
      rcases hrun : dedupRunFrom ⟨[], 0⟩ [] evs with _ | ⟨st, recs⟩
      · rw [hrun] at h
        exact absurd h (by simp)
      · rw [hrun] at h
        have hInv : DedupInv evs st recs := ih st recs hrun
        cases e with
        | call k =>
            rcases hlk : lookupKey st.pending k with _ | o0
            · -- fresh invocation
              simp only [dedupRunFrom, dedupStep, hlk, Option.some.injEq, Prod.mk.injEq] at h
              obtain ⟨hst, hrecs⟩ := h
              subst hst
              subst hrecs
              have hknotin : k ∉ st.pending.map Prod.fst := (lookupKey_eq_none_iff _ _).mp hlk
              refine ⟨?_, ?_, ?_, ?_, ?_, ?_, ?_, ?_⟩
              · intro k' o'
                rw [settled_append, settled_single_call, Bool.or_false]
                by_cases hk : k' = k
                · rw [hk, lookupKey_append_self st.pending k st.nextOp hlk]
                  constructor
                  · intro hl
                    have ho' : o' = st.nextOp := Option.some.inj hl.symm
                    constructor
                    · rw [ho']
                      exact List.mem_append_right _ (List.mem_singleton.mpr rfl)
                    · rcases hsn : settled evs o' with _ | _
                      · rfl
                      · exact absurd (hInv.settledLt o' hsn)
                          (by rw [ho']; exact lt_irrefl _)
                  · rintro ⟨hm, hs⟩
                    rcases List.mem_append.mp hm with hm | hm
                    · refine absurd ((hInv.pendingIff k o').mpr ⟨hm, hs⟩) ?_
                      rw [hlk]
                      simp
                    · rw [List.mem_singleton] at hm
                      have hm' : o' = st.nextOp := by
                        have := congrArg CallRecord.op hm
                        simpa using this
                      rw [hm']
                · rw [lookupKey_append_ne st.pending k st.nextOp k' hk]
                  constructor
                  · intro hl
                    obtain ⟨hm, hs⟩ := (hInv.pendingIff k' o').mp hl
                    exact ⟨List.mem_append_left _ hm, hs⟩
                  · rintro ⟨hm, hs⟩
                    rcases List.mem_append.mp hm with hm | hm
                    · exact (hInv.pendingIff k' o').mpr ⟨hm, hs⟩
                    · rw [List.mem_singleton] at hm
                      have := congrArg CallRecord.key hm
                      exact absurd this (by simpa using hk)
              · intro o
                rw [settleCount_append]
                have hone : settleCount [call k] o = 0 := rfl
                rw [hone]
                exact hInv.settleOnce o
              · intro r1 h1 r2 h2 hop
                rcases List.mem_append.mp h1 with h1 | h1 <;>
                  rcases List.mem_append.mp h2 with h2 | h2
                · exact hInv.opKey r1 h1 r2 h2 hop
                · rw [List.mem_singleton] at h2
                  subst h2
                  exact absurd hop (Nat.ne_of_lt (hInv.recsLt r1 h1))
                · rw [List.mem_singleton] at h1
                  subst h1
                  exact absurd hop.symm (Nat.ne_of_lt (hInv.recsLt r2 h2))
                · rw [List.mem_singleton] at h1
                  rw [List.mem_singleton] at h2
                  subst h1
                  subst h2
                  rfl
              · intro e he
                rcases List.mem_append.mp he with he | he
                · exact Nat.lt_succ_of_lt (hInv.pendingLt e he)
                · rw [List.mem_singleton] at he
                  subst he
                  exact Nat.lt_succ_self _
              · intro r hr
                rcases List.mem_append.mp hr with hr | hr
                · exact Nat.lt_succ_of_lt (hInv.recsLt r hr)
                · rw [List.mem_singleton] at hr
                  subst hr
                  exact Nat.lt_succ_self _
              · rw [List.map_append, List.nodup_append]
                refine ⟨hInv.keysNodup, List.nodup_singleton _, ?_⟩
                intro a ha hak
                rw [show List.map Prod.fst [(k, st.nextOp)] = [k] from rfl,
                  List.mem_singleton] at hak
                exact hknotin (hak ▸ ha)
              · rw [List.map_append, List.nodup_append]
                refine ⟨hInv.opsNodup, List.nodup_singleton _, ?_⟩
                intro a ha hak
                rw [show List.map Prod.snd [(k, st.nextOp)] = [st.nextOp] from rfl,
                  List.mem_singleton] at hak
                rcases List.mem_map.mp ha with ⟨ee, hee, heq⟩
                have := hInv.pendingLt ee hee
                rw [heq, hak] at this
                exact lt_irrefl _ this
              · intro o ho
                rw [settled_append, settled_single_call, Bool.or_false] at ho
                exact Nat.lt_succ_of_lt (hInv.settledLt o ho)
            · -- join of the in-flight operation
              simp only [dedupRunFrom, dedupStep, hlk, Option.some.injEq, Prod.mk.injEq] at h
              obtain ⟨hst, hrecs⟩ := h
              subst hst
              subst hrecs
              have hko : (⟨k, o0, true⟩ : CallRecord) ∈ recs ∧ settled evs o0 = false :=
                (hInv.pendingIff k o0).mp hlk
              refine ⟨?_, ?_, ?_, ?_, ?_, ?_, ?_, ?_⟩
              · intro k' o'
                rw [settled_append, settled_single_call, Bool.or_false]
                constructor
                · intro hl
                  obtain ⟨hm, hs⟩ := (hInv.pendingIff k' o').mp hl
                  exact ⟨List.mem_append_left _ hm, hs⟩
                · rintro ⟨hm, hs⟩
                  rcases List.mem_append.mp hm with hm | hm
                  · exact (hInv.pendingIff k' o').mpr ⟨hm, hs⟩
                  · rw [List.mem_singleton] at hm
                    have := congrArg CallRecord.invoked hm
                    simp at this
              · intro o
                rw [settleCount_append]
                have hone : settleCount [call k] o = 0 := rfl
                rw [hone]
                exact hInv.settleOnce o
              · intro r1 h1 r2 h2 hop
                rcases List.mem_append.mp h1 with h1 | h1 <;>
                  rcases List.mem_append.mp h2 with h2 | h2
                · exact hInv.opKey r1 h1 r2 h2 hop
                · rw [List.mem_singleton] at h2
                  subst h2
                  exact hInv.opKey r1 h1 ⟨k, o0, true⟩ hko.1 hop
                · rw [List.mem_singleton] at h1
                  subst h1
                  exact (hInv.opKey r2 h2 ⟨k, o0, true⟩ hko.1 hop.symm).symm
                · rw [List.mem_singleton] at h1
                  rw [List.mem_singleton] at h2
                  subst h1
                  subst h2
                  rfl
              · exact hInv.pendingLt
              · intro r hr
                rcases List.mem_append.mp hr with hr | hr
                · exact hInv.recsLt r hr
                · rw [List.mem_singleton] at hr
                  subst hr
                  exact hInv.pendingLt _ (lookupKey_mem _ _ _ hlk)
              · exact hInv.keysNodup
              · exact hInv.opsNodup
              · intro o ho
                rw [settled_append, settled_single_call, Bool.or_false] at ho
                exact hInv.settledLt o ho
        | settle o s =>
            rcases hfind : st.pending.find? (fun e => e.2 == o) with _ | kv
            · simp only [dedupRunFrom, dedupStep, hfind] at h
              exact Option.noConfusion h
            · simp only [dedupRunFrom, dedupStep, hfind, Option.some.injEq,
                Prod.mk.injEq] at h
              obtain ⟨hst, hrecs⟩ := h
              subst hst
              subst hrecs
              have hkvmem : kv ∈ st.pending := List.mem_of_find?_eq_some hfind
              have hkvop : kv.2 = o := by
                have := List.find?_some hfind
                simpa using this
              have hkomem : (kv.1, o) ∈ st.pending := by
                rw [← hkvop]
                exact hkvmem
              have hko : lookupKey st.pending kv.1 = some o :=
                lookupKey_eq_of_mem st.pending kv.1 o hkomem hInv.keysNodup
              have hrec : (⟨kv.1, o, true⟩ : CallRecord) ∈ recs ∧ settled evs o = false :=
                (hInv.pendingIff kv.1 o).mp hko
              refine ⟨?_, ?_, ?_, ?_, ?_, ?_, ?_, ?_⟩
              · intro k' o'
                rw [settled_append, settled_single_settle]
                by_cases hk : k' = kv.1
                · rw [hk, lookupKey_eraseKey_self]
                  constructor
                  · intro hl
                    exact Option.noConfusion hl
                  · rintro ⟨hm, hs⟩
                    rw [Bool.or_eq_false_iff] at hs
                    obtain ⟨hs1, hs2⟩ := hs
                    have hl' := (hInv.pendingIff kv.1 o').mpr ⟨hm, hs1⟩
                    rw [hko] at hl'
                    have hoo : o = o' := Option.some.inj hl'
                    rw [beq_eq_false_iff_ne] at hs2
                    exact absurd hoo hs2
                · rw [lookupKey_eraseKey_ne st.pending kv.1 k' hk]
                  constructor
                  · intro hl
                    obtain ⟨hm, hs⟩ := (hInv.pendingIff k' o').mp hl
                    have hne : ¬ o = o' := by
                      intro hoo
                      have hmem' : (k', o') ∈ st.pending := lookupKey_mem _ _ _ hl
                      have heq := List.inj_on_of_nodup_map hInv.opsNodup hmem' hkomem
                        (by rw [← hoo])
                      exact hk (congrArg Prod.fst heq)
                    refine ⟨hm, ?_⟩
                    rw [hs, Bool.false_or, beq_eq_false_iff_ne]
                    exact hne
                  · rintro ⟨hm, hs⟩
                    rw [Bool.or_eq_false_iff] at hs
                    exact (hInv.pendingIff k' o').mpr ⟨hm, hs.1⟩
              · intro o''
                rw [settleCount_append]
                by_cases ho : o = o''
                · have hz : settleCount evs o'' = 0 := by
                    rw [← ho]
                    exact (settled_false_iff_count_zero evs o).mp hrec.2
                  have hone : settleCount [settle o s] o'' = 1 := by
                    simp [settleCount, ho]
                  rw [hz, hone]
                · have hzero : settleCount [settle o s] o'' = 0 := by
                    simp [settleCount, ho]
                  rw [hzero]
                  simpa using hInv.settleOnce o''
              · exact hInv.opKey
              · intro e he
                exact hInv.pendingLt e (List.mem_of_mem_filter he)
              · exact hInv.recsLt
              · exact ((List.filter_sublist _).map Prod.fst).nodup hInv.keysNodup
              · exact ((List.filter_sublist _).map Prod.snd).nodup hInv.opsNodup
              · intro o'' ho
                rw [settled_append, settled_single_settle] at ho
                rcases Bool.or_eq_true_iff.mp ho with ho | ho
                · exact hInv.settledLt o'' ho
                · rw [beq_iff_eq] at ho
                  rw [← ho, ← hkvop]
                  exact hInv.pendingLt kv hkvmem

/-- Claim C4: single-flight deduplication.  After any valid trace:
a call whose key has an operation in flight returns exactly that
operation's promise without invoking the factory; a call whose key is
free invokes the factory exactly once, registering a fresh operation;
the pending map holds, per key, precisely the invoked-and-not-yet-settled
operation (so the factory never runs while a prior call's operation for
that key is unsettled, and settling removes the entry so the next call
starts fresh); an operation settles at most once (all callers holding it
observe that single outcome); and an operation id determines its key, so
all callers sharing an operation share its eventual result. -/
theorem deduplicateRequest_single_flight (evs : List DedupEvent) (st : DedupState)
    (recs : List CallRecord) (h : dedupRun evs = some (st, recs)) :
    (∀ k o, lookupKey st.pending k = some o →
        dedupStep st (DedupEvent.call k) = some (st, some ⟨k, o, false⟩))
  ∧ (∀ k, lookupKey st.pending k = none →
        dedupStep st (DedupEvent.call k)
          = some ({ pending := st.pending ++ [(k, st.nextOp)], nextOp := st.nextOp + 1 },
              some ⟨k, st.nextOp, true⟩))
  ∧ (∀ k o, lookupKey st.pending k = some o ↔
        ((⟨k, o, true⟩ : CallRecord) ∈ recs ∧ settled evs o = false))
  ∧ (∀ o, settleCount evs o ≤ 1)
  ∧ (∀ r₁ ∈ recs, ∀ r₂ ∈ recs, r₁.op = r₂.op → r₁.key = r₂.key) := by
  have hInv := dedupRun_inv evs st recs h
  refine ⟨?_, ?_, hInv.pendingIff, hInv.settleOnce, hInv.opKey⟩
  · intro k o hk
    simp [dedupStep, hk]
  · intro k hk
    simp [dedupStep, hk]

/-- Witness for the C4 theorem on the concrete trace with two
overlapping calls, a settlement and a fresh third call. -/
theorem deduplicateRequest_single_flight_witness :
    ((⟨"k", 1, true⟩ : CallRecord) ∈ demoDedupRecs ∧ settled demoTrace 1 = false)
  ∧ settleCount demoTrace 0 ≤ 1 :=
  ⟨((deduplicateRequest_single_flight demoTrace demoDedupState demoDedupRecs
      (by decide)).2.2.1 "k" 1).mp (by decide),
   (deduplicateRequest_single_flight demoTrace demoDedupState demoDedupRecs
      (by decide)).2.2.2.1 0⟩

/-! ## C3: minimum spacing of batch auto-populate placements -/

/-- The position returned by the hint scan is a valid index. -/
theorem findHtmlIdx_lt (nodes : List EditorNode) :
    ∀ (k i j : Nat), findHtmlIdx nodes k i = some j → i ≤ j ∧ j - i < nodes.length := by
  induction nodes with
  | nil =>
      intro k i j h
      exact absurd h (by simp [findHtmlIdx])
  | cons n rest ih =>
      intro k i j h
      simp only [findHtmlIdx] at h
      rw [List.length_cons]
      by_cases ht : (n.type == NodeType.HTML) = true
      · rw [if_pos ht] at h
        by_cases hk : (k == 0) = true
        · rw [if_pos hk] at h
          have hj : j = i := (Option.some.inj h).symm
          omega
        · rw [if_neg hk] at h
          have := ih (k - 1) (i + 1) j h
          omega
      · rw [if_neg ht] at h
        have := ih k (i + 1) j h
        omega

/-- A defined node type exhibits a valid index. -/
theorem typeAt_some_lt (nodes : List EditorNode) (j : Nat) (t : NodeType)
    (h : typeAt nodes j = some t) : j < nodes.length := by
  unfold typeAt at h
  rcases hg : nodes.get? j with _ | n
  · rw [hg] at h
    exact absurd h (by simp)
  · by_contra hnot
    rw [List.get?_eq_none.mpr (by omega)] at hg
    exact Option.noConfusion hg

/-- Propagating a property of the produced value through `findSome?`. -/
theorem findSome?_forall {α β : Type} (f : α → Option β) (P : β → Prop)
    (hf : ∀ a b, f a = some b → P b) :
    ∀ (l : List α) (b : β), l.findSome? f = some b → P b := by
  intro l
  induction l with
  | nil =>
      intro b h
      exact absurd h (by simp)
  | cons a l ih =>
      intro b h
      rw [List.findSome?_cons] at h
      rcases hfa : f a with _ | b'
      · rw [hfa] at h
        exact ih b h
      · rw [hfa] at h
        exact (Option.some.inj h) ▸ hf a b' hfa

/-- The position returned by the probe loop is in bounds and
unoccupied. -/
theorem probeHint_spec (nodes : List EditorNode) (i : Nat) :
    ∀ j, probeHint nodes i = some j → j < nodes.length ∧ occupiedIdx nodes j = false := by
  intro j h
  refine findSome?_forall _ (fun j => j < nodes.length ∧ occupiedIdx nodes j = false)
    ?_ _ j h
  intro off b hb
  by_cases h1 : i + off < nodes.length ∧ occupiedIdx nodes (i + off) = false
      ∧ typeAt nodes (i + off) = some NodeType.HTML
  · rw [if_pos h1] at hb
    have hbv : b = i + off := (Option.some.inj hb).symm
    subst hbv
    exact ⟨h1.1, h1.2.1⟩
  · rw [if_neg h1] at hb
    by_cases h2 : off ≤ i ∧ occupiedIdx nodes (i - off) = false
        ∧ typeAt nodes (i - off) = some NodeType.HTML
    · rw [if_pos h2] at hb
      have hbv : b = i - off := (Option.some.inj hb).symm
      subst hbv
      exact ⟨typeAt_some_lt nodes (i - off) NodeType.HTML h2.2.2, h2.2.1⟩
    · rw [if_neg h2] at hb
      exact absurd hb (by simp)

/-- The hint path either fails with `(-1, -1)` or returns a valid
unoccupied position scored at least 9000. -/
theorem hintSearch_spec (nodes : List EditorNode) (p : ProductDetails) :
    hintSearch nodes p = (-1, -1)
  ∨ (9000 ≤ (hintSearch nodes p).2 ∧ 0 ≤ (hintSearch nodes p).1
      ∧ (hintSearch nodes p).1.toNat < nodes.length
      ∧ occupiedIdx nodes (hintSearch nodes p).1.toNat = false) := by
  unfold hintSearch
  rcases hpi : p.paragraphIndex with _ | pi
  · exact Or.inl rfl
  · dsimp only
    by_cases hge : 0 ≤ pi
    · rw [if_pos hge]
      rcases hfi : findHtmlIdx nodes pi.toNat 0 with _ | i
      · exact Or.inl rfl
      · dsimp only
        have hi : i < nodes.length := by
          have := findHtmlIdx_lt nodes pi.toNat 0 i hfi
          omega
        by_cases hocc : occupiedIdx nodes i = false
        · rw [if_pos hocc]
          right
          refine ⟨by norm_num, by positivity, ?_, ?_⟩
          · simpa using hi
          · simpa using hocc
        · rw [if_neg hocc]
          rcases hpr : probeHint nodes i with _ | jj
          · exact Or.inl rfl
          · dsimp only
            have := probeHint_spec nodes i jj hpr
            right
            refine ⟨by norm_num, by positivity, ?_, ?_⟩
            · simpa using this.1
            · simpa using this.2
    · rw [if_neg hge]
      exact Or.inl rfl

/-- The fallback content scan preserves the candidate-position
invariant: unchanged sentinel, or an in-bounds unoccupied position. -/
theorem fallbackScan_spec (nodes : List EditorNode) (p : ProductDetails) (init : Int × Int)
    (hinit : init = (-1, -1)
      ∨ (0 ≤ init.1 ∧ init.1.toNat < nodes.length
          ∧ occupiedIdx nodes init.1.toNat = false)) :
    fallbackScan nodes p init = (-1, -1)
  ∨ (0 ≤ (fallbackScan nodes p init).1
      ∧ (fallbackScan nodes p init).1.toNat < nodes.length
      ∧ occupiedIdx nodes (fallbackScan nodes p init).1.toNat = false) := by
  unfold fallbackScan
  refine @List.foldlRecOn (Int × Int) (Nat × EditorNode)
    (fun s => s = (-1, -1) ∨ (0 ≤ s.1 ∧ s.1.toNat < nodes.length
        ∧ occupiedIdx nodes s.1.toNat = false))
    nodes.enum _ init ?_ ?_
  · rcases hinit with h | h
    · exact Or.inl h
    · exact Or.inr h
  · intro b hb q hq
    rcases q with ⟨idx, node⟩
    have hidx : idx < nodes.length := (List.mem_enum hq).1
    rcases hb1 : node.type == NodeType.HTML with _ | _
    · simpa only [hb1] using hb
    · rcases hc : node.content with _ | c
      · simpa only [hb1, hc] using hb
      · simp only [hb1, hc]
        by_cases hcond : c ≠ "" ∧ occupiedIdx nodes idx = false
        · rw [if_pos hcond]
          by_cases hsc : b.2 < adjustedRelevance c p
          · rw [if_pos hsc]
            right
            refine ⟨by positivity, ?_, ?_⟩
            · simpa using hidx
            · simpa using hcond.2
          · rw [if_neg hsc]
            exact hb
        · rw [if_neg hcond]
          exact hb

/-- Case analysis of one batch placement step: either nothing is placed,
or a new marked product node is inserted one past an in-bounds,
unoccupied position. -/
theorem placeOneMarked_cases (nodesM : List (Bool × EditorNode)) (inj : Nat)
    (p : ProductDetails) :
    placeOneMarked nodesM inj p = (nodesM, inj)
  ∨ ∃ b : Nat, b < nodesM.length ∧ occupiedIdx (nodesM.map Prod.snd) b = false
      ∧ placeOneMarked nodesM inj p
          = (nodesM.insertIdx (b + 1) (true, newProductNode p inj), inj + 1) := by
  have hbody : placeOneMarked nodesM inj p =
      (let first := hintSearch (nodesM.map Prod.snd) p
       let best := if first.2 < 9000 then fallbackScan (nodesM.map Prod.snd) p first else first
       if 0 ≤ best.1 ∧ 0 < best.2 then
         (nodesM.insertIdx (best.1.toNat + 1) (true, newProductNode p inj), inj + 1)
       else (nodesM, inj)) := rfl
  have hspec := hintSearch_spec (nodesM.map Prod.snd) p
  rw [hbody]
  dsimp only
  by_cases hm : (hintSearch (nodesM.map Prod.snd) p).2 < 9000
  · rw [if_pos hm]
    have hfv : hintSearch (nodesM.map Prod.snd) p = (-1, -1) := by
      rcases hspec with h | h
      · exact h
      · exact absurd h.1 (by omega)
    rw [hfv]
    have hP := fallbackScan_spec (nodesM.map Prod.snd) p (-1, -1) (Or.inl rfl)
    by_cases hcond : 0 ≤ (fallbackScan (nodesM.map Prod.snd) p (-1, -1)).1
        ∧ 0 < (fallbackScan (nodesM.map Prod.snd) p (-1, -1)).2
    · rw [if_pos hcond]
      rcases hP with h | h
      · rw [h] at hcond
        simp at hcond
      · right
        refine ⟨(fallbackScan (nodesM.map Prod.snd) p (-1, -1)).1.toNat, ?_, h.2.2, rfl⟩
        have hlt := h.2.1
        rwa [List.length_map] at hlt
    · rw [if_neg hcond]
      exact Or.inl rfl
  · rw [if_neg hm]
    rcases hspec with h | h
    · exact absurd (by rw [h]; decide) hm
    · have hcond : 0 ≤ (hintSearch (nodesM.map Prod.snd) p).1
          ∧ 0 < (hintSearch (nodesM.map Prod.snd) p).2 := ⟨h.2.1, by omega⟩
      rw [if_pos hcond]
      right
      refine ⟨(hintSearch (nodesM.map Prod.snd) p).1.toNat, ?_, h.2.2.2, rfl⟩
      have hlt := h.2.2.1
      rwa [List.length_map] at hlt

/-- Mapping commutes with positional insertion. -/
theorem map_insertIdx_fun {α β : Type} (f : α → β) :
    ∀ (n : Nat) (a : α) (l : List α),
      (List.insertIdx n a l).map f = List.insertIdx n (f a) (l.map f) := by
  intro n
  induction n with
  | zero =>
      intro a l
      simp [List.insertIdx_zero]
  | succ n ih =>
      intro a l
      cases l with
      | nil => simp [List.insertIdx_succ_nil]
      | cons b l => simp [List.insertIdx_succ_cons, ih]

/-- The instrumented placement step projects to the plain one. -/
theorem placeOneMarked_proj (nodesM : List (Bool × EditorNode)) (inj : Nat)
    (p : ProductDetails) :
    (placeOneMarked nodesM inj p).1.map Prod.snd = (placeOne (nodesM.map Prod.snd) inj p).1
  ∧ (placeOneMarked nodesM inj p).2 = (placeOne (nodesM.map Prod.snd) inj p).2 := by
  unfold placeOneMarked placeOne
  dsimp only
  split_ifs <;>
    first
      | exact ⟨map_insertIdx_fun Prod.snd _ _ _, rfl⟩
      | exact ⟨rfl, rfl⟩

/-- An unoccupied in-bounds position is farther than the minimum gap
from every product/comparison node. -/
theorem not_occupied_far (nodes : List EditorNode) (g : Nat) (hg : g < nodes.length)
    (hocc : occupiedIdx nodes g = false) :
    ∀ j (hj : j < nodes.length), isObstacle (nodes.get ⟨j, hj⟩) = true →
      g + MIN_GAP_BETWEEN_PRODUCTS < j ∨ j + MIN_GAP_BETWEEN_PRODUCTS < g := by
  intro j hj hobs
  unfold occupiedIdx at hocc
  rw [List.any_eq_false] at hocc
  have hmem : (j, nodes.get ⟨j, hj⟩) ∈ nodes.enum := by
    have hjl : j < nodes.enum.length := by
      rw [List.enum_length]
      exact hj
    have hget := List.getElem_enum nodes j hjl
    have heq : (j, nodes.get ⟨j, hj⟩) = nodes.enum[j] := by
      rw [hget, List.get_eq_getElem]
    rw [heq]
    exact List.getElem_mem hjl
  have hnot := hocc _ hmem
  have hnear : ¬ (j - MIN_GAP_BETWEEN_PRODUCTS ≤ g ∧ g ≤ j + MIN_GAP_BETWEEN_PRODUCTS) := by
    intro hx
    apply hnot
    show (isObstacle (nodes.get ⟨j, hj⟩) && decide (j - MIN_GAP_BETWEEN_PRODUCTS ≤ g)
        && decide (g ≤ j + MIN_GAP_BETWEEN_PRODUCTS) && decide (g < nodes.length)) = true
    rw [hobs]
    simp [hx.1, hx.2, hg]
  by_cases hble : j - MIN_GAP_BETWEEN_PRODUCTS ≤ g
  · right
    have hgt : ¬ g ≤ j + MIN_GAP_BETWEEN_PRODUCTS := fun hc => hnear ⟨hble, hc⟩
    unfold MIN_GAP_BETWEEN_PRODUCTS at *
    omega
  · left
    unfold MIN_GAP_BETWEEN_PRODUCTS at *
    omega

/-- One batch placement step preserves the spacing invariant: the new
node goes one past an unoccupied position, hence farther than the gap
from every obstacle, and shifting preserves existing distances. -/
theorem placeOneMarked_gap (nodesM : List (Bool × EditorNode)) (inj : Nat)
    (p : ProductDetails) (hInv : MarkedGapOK nodesM) :
    MarkedGapOK (placeOneMarked nodesM inj p).1 := by
  rcases placeOneMarked_cases nodesM inj p with h | ⟨b, hb, hocc, h⟩
  · rw [h]
    exact hInv
  · rw [h]
    dsimp only
    set x : Bool × EditorNode := (true, newProductNode p inj) with hx
    have htle : b + 1 ≤ nodesM.length := hb
    have hlen : (nodesM.insertIdx (b + 1) x).length = nodesM.length + 1 :=
      List.length_insertIdx (b + 1) nodesM htle
    have hold : ∀ u (hu : u < (nodesM.insertIdx (b + 1) x).length), u ≠ b + 1 →
        ∃ ou, ∃ hou : ou < nodesM.length,
          (nodesM.insertIdx (b + 1) x).get ⟨u, hu⟩ = nodesM.get ⟨ou, hou⟩
          ∧ ((u < b + 1 ∧ ou = u) ∨ (b + 1 < u ∧ ou + 1 = u)) := by
      intro u hu hne
      rcases Nat.lt_or_ge u (b + 1) with hlt | hge
      · have hu0 : u < nodesM.length := by omega
        refine ⟨u, hu0, ?_, Or.inl ⟨hlt, rfl⟩⟩
        rw [List.get_eq_getElem, List.get_eq_getElem]
        exact List.getElem_insertIdx_of_lt nodesM x (b + 1) u hlt hu0
      · have hgt : b + 1 < u := by omega
        have hu0 : u - 1 < nodesM.length := by
          rw [hlen] at hu
          omega
        refine ⟨u - 1, hu0, ?_, Or.inr ⟨hgt, by omega⟩⟩
        rw [List.get_eq_getElem, List.get_eq_getElem]
        have hk' : (b + 1) + (u - b - 2) < nodesM.length := by omega
        have hstep := List.getElem_insertIdx_add_succ nodesM x (b + 1) (u - b - 2) hk'
        have hu' : (b + 1) + (u - b - 2) + 1 = u := by omega
        have hou' : (b + 1) + (u - b - 2) = u - 1 := by omega
        simp_rw [hu', hou'] at hstep
        exact hstep
    obtain ⟨hmark1, hgap1⟩ := hInv
    have hFar : ∀ j (hj : j < nodesM.length), isObstacle (nodesM.get ⟨j, hj⟩).2 = true →
        b + MIN_GAP_BETWEEN_PRODUCTS < j ∨ j + MIN_GAP_BETWEEN_PRODUCTS < b := by
      intro j hj hob
      have hb' : b < (nodesM.map Prod.snd).length := by
        rw [List.length_map]
        exact hb
      have hj' : j < (nodesM.map Prod.snd).length := by
        rw [List.length_map]
        exact hj
      refine not_occupied_far (nodesM.map Prod.snd) b hb' hocc j hj' ?_
      rw [List.get_map]
      exact hob
    constructor
    · intro i hi hm
      by_cases hit : i = b + 1
      · subst hit
        have hget : (nodesM.insertIdx (b + 1) x).get ⟨b + 1, hi⟩ = x := by
          rw [List.get_eq_getElem]
          exact List.getElem_insertIdx_self nodesM x (b + 1) htle
        rw [hget]
        rfl
      · obtain ⟨ou, hou, hgeq, _⟩ := hold i hi hit
        rw [hgeq] at hm ⊢
        exact hmark1 ou hou hm
    · intro i j hi hj hne hm hobs
      by_cases hit : i = b + 1 <;> by_cases hjt : j = b + 1
      · exact absurd (hit.trans hjt.symm) hne
      · obtain ⟨oj, hoj, hgeq, hcase⟩ := hold j hj hjt
        rw [hgeq] at hobs
        have hfar := hFar oj hoj hobs
        subst hit
        unfold MIN_GAP_BETWEEN_PRODUCTS at *
        rcases hcase with ⟨hl1, he1⟩ | ⟨hl1, he1⟩ <;> rcases hfar with hf | hf <;> omega
      · obtain ⟨oi, hoi, hgeq, hcase⟩ := hold i hi hit
        rw [hgeq] at hm
        have hprod := hmark1 oi hoi hm
        have hobs' : isObstacle (nodesM.get ⟨oi, hoi⟩).2 = true := by
          unfold isObstacle
          rw [hprod]
          rfl
        have hfar := hFar oi hoi hobs'
        subst hjt
        unfold MIN_GAP_BETWEEN_PRODUCTS at *
        rcases hcase with ⟨hl1, he1⟩ | ⟨hl1, he1⟩ <;> rcases hfar with hf | hf <;> omega
      · obtain ⟨oi, hoi, hgi, hci⟩ := hold i hi hit
        obtain ⟨oj, hoj, hgj, hcj⟩ := hold j hj hjt
        rw [hgi] at hm
        rw [hgj] at hobs
        have hone : oi ≠ oj := by
          rcases hci with ⟨h1, h2⟩ | ⟨h1, h2⟩ <;> rcases hcj with ⟨h3, h4⟩ | ⟨h3, h4⟩ <;> omega
        have hfar := hgap1 oi oj hoi hoj hone hm hobs
        unfold MIN_GAP_BETWEEN_PRODUCTS at *
        rcases hci with ⟨h1, h2⟩ | ⟨h1, h2⟩ <;> rcases hcj with ⟨h3, h4⟩ | ⟨h3, h4⟩ <;>
          rcases hfar with hf | hf <;> omega

/-- The instrumented batch run projects to the source's
`handleAutoPopulate` (same nodes, same injected count). -/
theorem autoPopulateMarked_proj (nodes : List EditorNode) (toPlace : List ProductDetails) :
    (autoPopulateMarked nodes toPlace).1.map Prod.snd = (handleAutoPopulate nodes toPlace).1
  ∧ (autoPopulateMarked nodes toPlace).2 = (handleAutoPopulate nodes toPlace).2 := by
  have h : ∀ (cands : List ProductDetails) (nm : List (Bool × EditorNode)) (k : Nat),
      ((cands.foldl (fun acc p => placeOneMarked acc.1 acc.2 p) (nm, k)).1.map Prod.snd,
        (cands.foldl (fun acc p => placeOneMarked acc.1 acc.2 p) (nm, k)).2)
      = ((cands.foldl (fun acc p => placeOne acc.1 acc.2 p) (nm.map Prod.snd, k)).1,
         (cands.foldl (fun acc p => placeOne acc.1 acc.2 p) (nm.map Prod.snd, k)).2) := by
    intro cands
    induction cands with
    | nil =>
        intro nm k
        rfl
    | cons p cands ih =>
        intro nm k
        rw [List.foldl_cons, List.foldl_cons]
        have hp := placeOneMarked_proj nm k p
        have hstep : placeOne (nm.map Prod.snd) k p
            = ((placeOneMarked nm k p).1.map Prod.snd, (placeOneMarked nm k p).2) := by
          rcases hq : placeOne (nm.map Prod.snd) k p with ⟨a, c⟩
          rcases hr : placeOneMarked nm k p with ⟨d, e⟩
          rw [hq, hr] at hp
          exact Prod.ext hp.1.symm hp.2.symm
        rw [hstep]
        exact ih (placeOneMarked nm k p).1 (placeOneMarked nm k p).2
  have hmain := h (sortCandidates toPlace) (nodes.map (fun n => (false, n))) 0
  unfold autoPopulateMarked handleAutoPopulate
  have hmapmap : (nodes.map (fun n => (false, n))).map Prod.snd = nodes := by
    rw [List.map_map]
    exact (List.map_congr_left (fun a _ => rfl)).trans (List.map_id nodes)
  rw [hmapmap] at hmain
  exact ⟨congrArg Prod.fst hmain, congrArg Prod.snd hmain⟩

/-- Claim C3: after a single auto-populate batch, every node inserted by
the batch (the marked nodes of the instrumented run, which projects to
the source's `handleAutoPopulate`) lies strictly farther than
`MIN_GAP_BETWEEN_PRODUCTS` node positions from every other product or
comparison node — batch-inserted or pre-existing.  This holds
unconditionally: even colliding paragraph-index hints cannot force two
placements inside the gap, because every insertion site must be
unoccupied at insertion time, so the claim's exception clause is
vacuous. -/
theorem autoPopulate_min_gap (nodes : List EditorNode) (toPlace : List ProductDetails) :
    ((autoPopulateMarked nodes toPlace).1.map Prod.snd
        = (handleAutoPopulate nodes toPlace).1
      ∧ (autoPopulateMarked nodes toPlace).2 = (handleAutoPopulate nodes toPlace).2)
  ∧ ∀ i j (hi : i < (autoPopulateMarked nodes toPlace).1.length)
      (hj : j < (autoPopulateMarked nodes toPlace).1.length), i ≠ j →
      ((autoPopulateMarked nodes toPlace).1.get ⟨i, hi⟩).1 = true →
      isObstacle ((autoPopulateMarked nodes toPlace).1.get ⟨j, hj⟩).2 = true →
      i + MIN_GAP_BETWEEN_PRODUCTS < j ∨ j + MIN_GAP_BETWEEN_PRODUCTS < i := by
  refine ⟨autoPopulateMarked_proj nodes toPlace, ?_⟩
  have hgap : MarkedGapOK (autoPopulateMarked nodes toPlace).1 := by
    unfold autoPopulateMarked
    refine @List.foldlRecOn (List (Bool × EditorNode) × Nat) ProductDetails
      (fun s => MarkedGapOK s.1) (sortCandidates toPlace) _
      (nodes.map (fun n => (false, n)), 0) ?_ ?_
    · constructor
      · intro i hi hm
        rw [List.get_map] at hm
        exact absurd hm (by simp)
      · intro i j hi hj hne hm
        rw [List.get_map] at hm
        exact absurd hm (by simp)
    · intro s hs q _
      exact placeOneMarked_gap s.1 s.2 q hs
  exact hgap.2

/-- Witness for the C3 theorem: on the twelve-block demo document with a
hinted and an unhinted candidate, the batch inserts marked nodes at
positions 1 and 6, which are farther apart than the minimum gap. -/
theorem autoPopulate_min_gap_witness :
    1 + MIN_GAP_BETWEEN_PRODUCTS < 6 ∨ 6 + MIN_GAP_BETWEEN_PRODUCTS < 1 :=
  (autoPopulate_min_gap demoDoc [demoCandA, demoCandB]).2 1 6
    (by decide) (by decide) (by decide) (by decide) (by decide)

end AmzWP
